import Mathlib

/-!
# Raspberry Pi adaptor (`platforms/raspi/raspi_adaptor.go`)

A shallow embedding of the adaptor: the static pin table, the line resolution
and export cache of `digitalPin`, the digital read/write operations, the
unsupported PWM write, the I2C bus operations and `Finalize`.

Go values are embedded as follows.

* `string` is `String`, `int` is `Int`, `byte`/`uint` are `Nat` (a `byte` is
  reduced modulo 256 where it is converted).
* `error` is `Option Error`, `none` being the nil error.
* a Go `map` is an association list looked up from the front; an index whose
  key is missing yields the zero value, exactly as `m[k]` does.
* a method with a pointer receiver is a function from the receiver and the
  outside world to a result, the new receiver and the new world.
* the `sysfs` package is not part of the file: it is a parameter (`Sysfs`),
  and every call into it is appended to the `trace` of the world.
* what the Go runtime decides is an explicit argument of the call it is decided
  in: the order in which `range` visits a map (`visit` of `Finalize`) and the
  largest length `make` accepts (`maxAlloc` of `I2cRead`).
-/

namespace Raspi

/-! ## Data model -/

/-- A Go `error` value that is not nil, identified by its message. -/
abbrev Error := String

/-- Package constant `sysfs.IN`. -/
def IN : String := "in"

/-- Package constant `sysfs.OUT`. -/
def OUT : String := "out"

/-- A non-nil `sysfs.DigitalPin`: the object made by `sysfs.NewDigitalPin(pin)`.
`addr` is the identity of the allocated object, `pin` the line it was made for. -/
structure DigitalPin where
  addr : Nat
  pin : Int
  deriving DecidableEq, Repr

/-- A non-nil `io.ReadWriteCloser` as returned by `sysfs.NewI2cDevice`. -/
structure I2cDevice where
  fd : Nat
  deriving DecidableEq, Repr

/-- One call into the `sysfs` package that touches the kernel. -/
inductive Call where
  | Export (p : DigitalPin)
  | Unexport (p : DigitalPin)
  | Direction (p : DigitalPin) (dir : String)
  | Read (p : DigitalPin)
  | Write (p : DigitalPin) (b : Int)
  | NewI2cDevice (location : String) (address : Nat)
  | BusWrite (d : I2cDevice) (data : List Nat)
  | BusRead (d : I2cDevice) (size : Nat)
  | BusClose (d : I2cDevice)
  deriving DecidableEq, Repr

/-- Modelled from the spec: the `sysfs` package, which the adaptor imports and
which is not among the sources. It is the "kernel line-export driver" and the
"kernel bus-device driver" of the external interfaces: `Export`, `Direction`,
`Read`, `Write`, `Unexport` on a line handle, and open/`Write`/`Read`/`Close`
on a bus handle. Each operation is a total function of the driver state `σ`.
`BusRead` is given the caller's buffer and returns the bytes it stored in it. -/
structure Sysfs (σ : Type) where
  Export : DigitalPin → σ → Option Error × σ
  Unexport : DigitalPin → σ → Option Error × σ
  Direction : DigitalPin → String → σ → Option Error × σ
  Read : DigitalPin → σ → (Int × Option Error) × σ
  Write : DigitalPin → Int → σ → Option Error × σ
  NewI2cDevice : String → Nat → σ → (Option I2cDevice × Option Error) × σ
  BusWrite : I2cDevice → List Nat → σ → (Int × Option Error) × σ
  BusRead : I2cDevice → List Nat → σ → (List Nat × Int × Option Error) × σ
  BusClose : I2cDevice → σ → Option Error × σ

/-- Everything outside the adaptor: the driver state, the calls made into the
driver so far (oldest first) and the number of objects allocated so far. -/
structure World (σ : Type) where
  sys : σ
  trace : List Call
  heap : Nat

/-- The struct `RaspiAdaptor`. `digitalPins` is the `map[int]sysfs.DigitalPin`
(a value may be the nil interface, `none`; the map itself is never nil, the
constructor makes it); `i2cDevice` is nil when `none`. The embedded
`gobot.Adaptor` is kept as its `name`. -/
structure RaspiAdaptor where
  name : String
  revision : String
  i2cLocation : String
  digitalPins : List (Int × Option DigitalPin)
  i2cDevice : Option I2cDevice
  deriving DecidableEq, Repr

/-- How a Go call ends: it returns, or it panics. -/
inductive Outcome (α : Type) where
  | ret (a : α)
  | panic (msg : String)
  deriving DecidableEq, Repr

deriving instance DecidableEq for Except

/-- The message of the runtime panic raised by a method call on a nil interface. -/
def nilDeref : String := "runtime error: invalid memory address or nil pointer dereference"

/-- The message of the runtime panic raised by `make` on a length it does not accept. -/
def makesliceRange : String := "runtime error: makeslice: len out of range"

/-- The allocation `make([]byte, size)`: `size` zero bytes, or the runtime panic
when `size` is above `maxAlloc`, the largest length the runtime accepts. -/
def makeBytes (maxAlloc size : Nat) : Outcome (List Nat) :=
  if size ≤ maxAlloc then .ret (List.replicate size 0) else .panic makesliceRange

/-- What a `Read(data)` leaves in the caller's slice: the bytes the callee
stored, over the slice, which keeps its length. -/
def fillBuffer (data stored : List Nat) : List Nat :=
  (stored ++ data.drop stored.length).take data.length

/-! ## Go maps -/

/-- The comma-ok index `v, ok := m[k]`. -/
def mapGet {κ β : Type} [BEq κ] (m : List (κ × β)) (k : κ) : Option β :=
  m.lookup k

/-- The assignment `m[k] = v`: replaces the value of an existing key, adds the
key otherwise. -/
def mapSet {κ β : Type} [BEq κ] : List (κ × β) → κ → β → List (κ × β)
  | [], k, v => [(k, v)]
  | (k', v') :: m, k, v => if k' == k then (k', v) :: m else (k', v') :: mapSet m k v

/-- The plain index `r.digitalPins[i]`: nil when the key is missing or maps to nil. -/
def cacheGet (m : List (Int × Option DigitalPin)) (i : Int) : Option DigitalPin :=
  (mapGet m i).getD none

/-- The number of entries of the cache stored under line `i`. -/
def cacheCount (m : List (Int × Option DigitalPin)) (i : Int) : Nat :=
  (m.filter (fun e => e.1 == i)).length

/-! ## The pin table -/

/-- The package variable `pins`. -/
def pins : List (String × List (String × Int)) :=
  [ ("3", [("1", 0), ("2", 2), ("3", 2)]),
    ("5", [("1", 1), ("2", 3), ("3", 3)]),
    ("7", [("*", 4)]),
    ("8", [("*", 14)]),
    ("10", [("*", 15)]),
    ("11", [("*", 17)]),
    ("12", [("*", 18)]),
    ("13", [("1", 21), ("2", 27), ("3", 27)]),
    ("15", [("*", 22)]),
    ("16", [("*", 23)]),
    ("18", [("*", 24)]),
    ("19", [("*", 10)]),
    ("21", [("*", 9)]),
    ("22", [("*", 25)]),
    ("23", [("*", 11)]),
    ("24", [("*", 8)]),
    ("26", [("*", 7)]),
    ("29", [("3", 5)]),
    ("31", [("3", 6)]),
    ("32", [("3", 12)]),
    ("33", [("3", 13)]),
    ("35", [("3", 19)]),
    ("36", [("3", 16)]),
    ("37", [("3", 26)]),
    ("38", [("3", 20)]),
    ("40", [("3", 21)]) ]

/-- The double index `tbl[pin][key]` with comma-ok: a missing `pin` yields the
nil inner map, in which every key is missing. -/
def pinsGet (tbl : List (String × List (String × Int))) (pin key : String) : Option Int :=
  mapGet ((mapGet tbl pin).getD []) key

/-- The first statement of `digitalPin` (the `if`/`else if`/`else` chain that
sets `i`), over an arbitrary table. -/
def pinLineIn (tbl : List (String × List (String × Int))) (pin revision : String) :
    Except Error Int :=
  match pinsGet tbl pin revision with
  | some val => .ok val
  | none =>
    match pinsGet tbl pin "*" with
    | some val => .ok val
    | none => .error "Not a valid pin"

/-- The line resolution of `digitalPin` over the package table `pins`. -/
def pinLine (pin revision : String) : Except Error Int :=
  pinLineIn pins pin revision

/-- The reference lookup, in the words of the specification (Pin Resolver):
look the label up in the table, fail if absent; within the entry look the
revision up exactly; else the wildcard; else fail. -/
def resolve (tbl : List (String × List (String × Int))) (pinLabel revision : String) :
    Option Int :=
  match tbl.lookup pinLabel with
  | none => none
  | some entry =>
    match entry.lookup revision with
    | some line => some line
    | none =>
      match entry.lookup "*" with
      | some line => some line
      | none => none

/-! ## The adaptor -/

/-- The tail of the variable `boardRevision`: the classification of the parsed
revision code `d` into a revision label and a bus device path. -/
def boardRevision (d : Int) : String × String :=
  let rev := if d ≤ 3 then "1" else if d ≤ 15 then "2" else "3"
  if rev = "1" then (rev, "/dev/i2c-0") else (rev, "/dev/i2c-1")

/-- The constructor `NewRaspiAdaptor`, given what `boardRevision()` returns. -/
def NewRaspiAdaptor (detected : String × String) (name : String) : RaspiAdaptor :=
  { name := name
    revision := detected.1
    i2cLocation := detected.2
    digitalPins := []
    i2cDevice := none }

/-- The method `Connect`: it only returns nil. (The comment above it in the
source speaks of creating the pin maps; the one map there is, `digitalPins`, is
made by `NewRaspiAdaptor`.) -/
def Connect {σ : Type} (r : RaspiAdaptor) (w : World σ) :
    Option Error × RaspiAdaptor × World σ :=
  (none, r, w)

/-- The body of the loop of `Finalize`, run over the entries in the order in
which they are visited. -/
def unexportAll {σ : Type} (D : Sysfs σ) :
    List (Int × Option DigitalPin) → World σ → World σ
  | [], w => w
  | (_, none) :: m, w => unexportAll D m w
  | (_, some pin) :: m, w =>
    unexportAll D m
      { w with sys := (D.Unexport pin w.sys).2, trace := w.trace ++ [Call.Unexport pin] }

/-- The method `Finalize`. `visit` is the sequence of entries that
`range r.digitalPins` yields: Go leaves the order unspecified and may change it
from one loop to the next, so `visit` is any permutation of `r.digitalPins`
(the hypothesis `visit.Perm r.digitalPins` of the theorems about `Finalize`). -/
def Finalize {σ : Type} (D : Sysfs σ) (visit : List (Int × Option DigitalPin))
    (r : RaspiAdaptor) (w : World σ) : Option Error × RaspiAdaptor × World σ :=
  let w1 := unexportAll D visit w
  match r.i2cDevice with
  | some dev =>
    (none, r, { w1 with sys := (D.BusClose dev w1.sys).2, trace := w1.trace ++ [Call.BusClose dev] })
  | none => (none, r, w1)

/-- The second half of `digitalPin`, once `i` is set: export on first use,
then set the direction. -/
def acquire {σ : Type} (D : Sysfs σ) (i : Int) (dir : String) (r : RaspiAdaptor)
    (w : World σ) : (Option DigitalPin × Option Error) × RaspiAdaptor × World σ :=
  match cacheGet r.digitalPins i with
  | none =>
    let p : DigitalPin := { addr := w.heap, pin := i }
    let r1 := { r with digitalPins := mapSet r.digitalPins i (some p) }
    let e := D.Export p w.sys
    let w1 : World σ := { sys := e.2, trace := w.trace ++ [Call.Export p], heap := w.heap + 1 }
    match e.1 with
    | some err => ((none, some err), r1, w1)
    | none =>
      let d := D.Direction p dir w1.sys
      let w2 : World σ := { w1 with sys := d.2, trace := w1.trace ++ [Call.Direction p dir] }
      match d.1 with
      | some err => ((none, some err), r1, w2)
      | none => ((some p, none), r1, w2)
  | some p =>
    let d := D.Direction p dir w.sys
    let w2 : World σ := { w with sys := d.2, trace := w.trace ++ [Call.Direction p dir] }
    match d.1 with
    | some err => ((none, some err), r, w2)
    | none => ((some p, none), r, w2)

/-- The method `digitalPin`. -/
def digitalPin {σ : Type} (D : Sysfs σ) (pin dir : String) (r : RaspiAdaptor)
    (w : World σ) : (Option DigitalPin × Option Error) × RaspiAdaptor × World σ :=
  match pinLine pin r.revision with
  | .error err => ((none, some err), r, w)
  | .ok i => acquire D i dir r w

/-- The method `DigitalRead`. On an error the named result `val` is still 0.
The last case, a nil handle with a nil error, is never returned by `digitalPin`
(`digitalPin_handle_or_error`). -/
def DigitalRead {σ : Type} (D : Sysfs σ) (pin : String) (r : RaspiAdaptor)
    (w : World σ) : (Int × Option Error) × RaspiAdaptor × World σ :=
  match digitalPin D pin IN r w with
  | ((some sysfsPin, none), r1, w1) =>
    let v := D.Read sysfsPin w1.sys
    (v.1, r1, { w1 with sys := v.2, trace := w1.trace ++ [Call.Read sysfsPin] })
  | ((_, some err), r1, w1) => ((0, some err), r1, w1)
  | ((none, none), r1, w1) => ((0, none), r1, w1)

/-- The method `DigitalWrite`; `int(val)` is the byte itself. The last case, a
nil handle with a nil error, is never returned by `digitalPin`
(`digitalPin_handle_or_error`). -/
def DigitalWrite {σ : Type} (D : Sysfs σ) (pin : String) (val : Nat) (r : RaspiAdaptor)
    (w : World σ) : Option Error × RaspiAdaptor × World σ :=
  match digitalPin D pin OUT r w with
  | ((some sysfsPin, none), r1, w1) =>
    let b : Int := Int.ofNat (val % 256)
    let e := D.Write sysfsPin b w1.sys
    (e.1, r1, { w1 with sys := e.2, trace := w1.trace ++ [Call.Write sysfsPin b] })
  | ((_, some err), r1, w1) => (some err, r1, w1)
  | ((none, none), r1, w1) => (none, r1, w1)

/-- The method `PwmWrite`. -/
def PwmWrite {σ : Type} (_pin : String) (_val : Nat) (r : RaspiAdaptor) (w : World σ) :
    Option Error × RaspiAdaptor × World σ :=
  (some "PwmWrite is not yet implemented.", r, w)

/-- The method `I2cStart`. -/
def I2cStart {σ : Type} (D : Sysfs σ) (address : Nat) (r : RaspiAdaptor) (w : World σ) :
    Option Error × RaspiAdaptor × World σ :=
  let o := D.NewI2cDevice r.i2cLocation address w.sys
  (o.1.2, { r with i2cDevice := o.1.1 },
    { w with sys := o.2, trace := w.trace ++ [Call.NewI2cDevice r.i2cLocation address] })

/-- The method `I2cWrite`: a method call on `r.i2cDevice`, which panics when
the interface is nil. -/
def I2cWrite {σ : Type} (D : Sysfs σ) (data : List Nat) (r : RaspiAdaptor) (w : World σ) :
    Outcome (Option Error) × RaspiAdaptor × World σ :=
  match r.i2cDevice with
  | none => (.panic nilDeref, r, w)
  | some dev =>
    let o := D.BusWrite dev data w.sys
    (.ret o.1.2, r, { w with sys := o.2, trace := w.trace ++ [Call.BusWrite dev data] })

/-- The method `I2cRead`: `data = make([]byte, size)`, which panics on a length
the runtime does not accept; then a method call on `r.i2cDevice`, which panics
when the interface is nil; the slice returned is `data` itself, with what the
driver stored in it. -/
def I2cRead {σ : Type} (D : Sysfs σ) (maxAlloc size : Nat) (r : RaspiAdaptor)
    (w : World σ) : Outcome (List Nat × Option Error) × RaspiAdaptor × World σ :=
  match makeBytes maxAlloc size with
  | .panic msg => (.panic msg, r, w)
  | .ret data =>
    match r.i2cDevice with
    | none => (.panic nilDeref, r, w)
    | some dev =>
      let o := D.BusRead dev data w.sys
      (.ret (fillBuffer data o.1.1, o.1.2.2), r,
        { w with sys := o.2, trace := w.trace ++ [Call.BusRead dev size] })

/-! ## Sequences of operations -/

/-- One call of the public surface of the adaptor, together with what the Go
runtime decides in it: the order in which the loop of `Finalize` visits the
map, and the largest length the `make` of `I2cRead` accepts. The sequences of
calls of a real execution are those in which every `visit` is a permutation of
the map at that point. -/
inductive Op where
  | Connect
  | Finalize (visit : List (Int × Option DigitalPin))
  | DigitalRead (pin : String)
  | DigitalWrite (pin : String) (val : Nat)
  | PwmWrite (pin : String) (val : Nat)
  | I2cStart (address : Nat)
  | I2cWrite (data : List Nat)
  | I2cRead (maxAlloc : Nat) (size : Nat)
  deriving DecidableEq, Repr

/-- The effect of one public call on the adaptor and the world (a panicking
call leaves both as they were when it panicked). -/
def step {σ : Type} (D : Sysfs σ) (op : Op) (s : RaspiAdaptor × World σ) :
    RaspiAdaptor × World σ :=
  match op with
  | .Connect => (Connect s.1 s.2).2
  | .Finalize visit => (Finalize D visit s.1 s.2).2
  | .DigitalRead pin => (DigitalRead D pin s.1 s.2).2
  | .DigitalWrite pin val => (DigitalWrite D pin val s.1 s.2).2
  | .PwmWrite pin val => (PwmWrite pin val s.1 s.2).2
  | .I2cStart address => (I2cStart D address s.1 s.2).2
  | .I2cWrite data => (I2cWrite D data s.1 s.2).2
  | .I2cRead maxAlloc size => (I2cRead D maxAlloc size s.1 s.2).2

/-- A sequence of public calls, run from left to right. -/
def run {σ : Type} (D : Sysfs σ) (ops : List Op) (s : RaspiAdaptor × World σ) :
    RaspiAdaptor × World σ :=
  ops.foldl (fun acc op => step D op acc) s

/-- The driver calls one `Finalize` makes on adaptor `r` when its loop visits
the entries in the order `visit`: an `Unexport` for each non-nil handle, then a
`Close` when a bus handle is stored. -/
def finalizeCalls (visit : List (Int × Option DigitalPin)) (r : RaspiAdaptor) : List Call :=
  (visit.filterMap (fun e => e.2)).map Call.Unexport ++
    r.i2cDevice.toList.map Call.BusClose

/-- Whether a driver call is an `Export`. -/
def Call.isExport : Call → Bool
  | .Export _ => true
  | _ => false

/-! ## Drivers and states used as concrete inputs -/

/-- A fake driver that echoes: every call succeeds, `Write` records the value
under the line of the handle and `Read` returns the value recorded there (0 if
none). The state is the map from line to recorded value. -/
def echoSysfs : Sysfs (List (Int × Int)) where
  Export := fun _ s => (none, s)
  Unexport := fun _ s => (none, s)
  Direction := fun _ _ s => (none, s)
  Read := fun p s => (((mapGet s p.pin).getD 0, none), s)
  Write := fun p b s => (none, mapSet s p.pin b)
  NewI2cDevice := fun _ address s => ((some ⟨address⟩, none), s)
  BusWrite := fun _ data s => ((data.length, none), s)
  BusRead := fun _ data s => ((List.replicate data.length 0, data.length, none), s)
  BusClose := fun _ s => (none, s)

/-- A fake driver on which `Export` always fails and every other call succeeds. -/
def noExportSysfs : Sysfs Unit where
  Export := fun _ s => (some "export: permission denied", s)
  Unexport := fun _ s => (none, s)
  Direction := fun _ _ s => (none, s)
  Read := fun _ s => ((0, none), s)
  Write := fun _ _ s => (none, s)
  NewI2cDevice := fun _ address s => ((some ⟨address⟩, none), s)
  BusWrite := fun _ data s => ((data.length, none), s)
  BusRead := fun _ data s => ((List.replicate data.length 0, data.length, none), s)
  BusClose := fun _ s => (none, s)

/-- The adaptor of the test suite: revision "3" on "/dev/i2c-1", nothing cached. -/
def testAdaptor : RaspiAdaptor :=
  NewRaspiAdaptor ("3", "/dev/i2c-1") "myAdaptor"

/-- The adaptor of the test suite after `DigitalWrite("7", 1)`,
`DigitalWrite("13", 1)` and `I2cStart(8)` against `echoSysfs`: lines 4 and 27
are cached and a bus handle is stored. -/
def busyAdaptor : RaspiAdaptor :=
  { testAdaptor with
    digitalPins := [(4, some { addr := 0, pin := 4 }), (27, some { addr := 1, pin := 27 })]
    i2cDevice := some { fd := 8 } }

/-- A world in which no driver call has been made yet. -/
def freshWorld {σ : Type} (s : σ) : World σ :=
  { sys := s, trace := [], heap := 0 }

/-- The adaptor of the test suite and the world after `DigitalRead("7")`
against `echoSysfs`: line 4 is exported and cached. -/
def cachedSeven : RaspiAdaptor × World (List (Int × Int)) :=
  run echoSysfs [.DigitalRead "7"] (testAdaptor, freshWorld [])

/-- The driver of the round-trip property: `Export`, `Direction` and `Write`
succeed and `Read` returns the value last written to the line, `last s l` being
the value last written to line `l` in driver state `s`. -/
structure Echoes {σ : Type} (D : Sysfs σ) (last : σ → Int → Option Int) : Prop where
  export_ok : ∀ p s, (D.Export p s).1 = none
  direction_ok : ∀ p dir s, (D.Direction p dir s).1 = none
  direction_last : ∀ p dir s l, last (D.Direction p dir s).2 l = last s l
  write_ok : ∀ p b s, (D.Write p b s).1 = none
  write_last : ∀ p b s, last (D.Write p b s).2 p.pin = some b
  read_last : ∀ p s b, last s p.pin = some b → (D.Read p s).1 = (b, none)

/-- Every handle of the cache is stored under the line it was made for. -/
def CacheKeyed (m : List (Int × Option DigitalPin)) : Prop :=
  ∀ e ∈ m, ∀ p, e.2 = some p → p.pin = e.1

/-- The pin labels that only the 40-pin header of revision "3" has. -/
def rev3Only : List String := ["29", "31", "32", "33", "35", "36", "37", "38", "40"]

/-! ## Resolution -/

theorem lookup_eq_none_of_not_mem {β : Type} (m : List (String × β)) (k : String)
    (h : k ∉ m.map Prod.fst) : m.lookup k = none := by
  induction m with
  | nil => rfl
  | cons e m ih =>
    obtain ⟨k', v⟩ := e
    simp only [List.map_cons, List.mem_cons, not_or] at h
    have hne : (k == k') = false := by simpa using h.1
    simp only [List.lookup, hne]
    exact ih h.2

theorem pinLineIn_eq_resolve (tbl : List (String × List (String × Int))) (pin rev : String) :
    pinLineIn tbl pin rev =
      match resolve tbl pin rev with
      | some line => .ok line
      | none => .error "Not a valid pin" := by
  unfold pinLineIn pinsGet mapGet resolve
  cases h : tbl.lookup pin with
  | none => simp
  | some e =>
    simp only [Option.getD_some]
    cases h1 : e.lookup rev with
    | some v => simp
    | none =>
      cases h2 : e.lookup "*" with
      | some v => simp
      | none => simp

theorem pinLine_of_not_key (pin rev : String) (h : pin ∉ pins.map Prod.fst) :
    pinLine pin rev = .error "Not a valid pin" := by
  have h0 : pins.lookup pin = none := lookup_eq_none_of_not_mem pins pin h
  simp [pinLine, pinLineIn, pinsGet, mapGet, h0]

theorem pinLine_seven (rev : String) : pinLine "7" rev = .ok 4 := by
  have h0 : pins.lookup "7" = some [("*", 4)] := by decide
  by_cases h : rev = "*"
  · subst h
    decide
  · have hne : (rev == "*") = false := by simpa using h
    simp [pinLine, pinLineIn, pinsGet, mapGet, h0, List.lookup, hne]

/-- C1: the line resolution of `digitalPin` is the reference lookup `resolve`.
Over any table, the `if`/`else if`/`else` chain returns the exact revision's
value when the entry has one, else the wildcard's value when the entry has one,
else fails with "Not a valid pin" (also for a label that is not in the table);
`digitalPin` fails with that error and touches nothing when the lookup over
`pins` fails, and otherwise goes on with the line the lookup returns; and when
an entry holds both the exact revision and the wildcard, the exact revision's
value is returned. -/
theorem digitalPin_resolution_refines_resolve
    (tbl : List (String × List (String × Int))) (pin rev : String) :
    (pinLineIn tbl pin rev =
      match resolve tbl pin rev with
      | some line => .ok line
      | none => .error "Not a valid pin") ∧
    (∀ (σ : Type) (D : Sysfs σ) (dir : String) (r : RaspiAdaptor) (w : World σ),
      r.revision = rev →
      digitalPin D pin dir r w =
        match resolve pins pin rev with
        | some line => acquire D line dir r w
        | none => ((none, some "Not a valid pin"), r, w)) ∧
    (∀ (entry : List (String × Int)) (exact wild : Int),
      tbl.lookup pin = some entry → entry.lookup rev = some exact →
      entry.lookup "*" = some wild → pinLineIn tbl pin rev = .ok exact) := by
  refine ⟨pinLineIn_eq_resolve tbl pin rev, ?_, ?_⟩
  · intro σ D dir r w hr
    unfold digitalPin pinLine
    rw [hr, pinLineIn_eq_resolve]
    cases resolve pins pin rev <;> rfl
  · intro entry exact wild h1 h2 _
    simp [pinLineIn, pinsGet, mapGet, h1, h2]

/-- Witness of C1 on a table whose entry for "3" holds both the wildcard and
the exact revision "2": the exact value 2 is returned, not the wildcard's 9. -/
theorem digitalPin_resolution_refines_resolve_witness :
    pinLineIn [("3", [("*", 9), ("2", 2)])] "3" "2" = .ok 2 :=
  (digitalPin_resolution_refines_resolve [("3", [("*", 9), ("2", 2)])] "3" "2").2.2
    [("*", 9), ("2", 2)] 2 9 (by decide) (by decide) (by decide)

/-- Counterexample to C2: pin "29" is in the table, and under revision "1"
resolution fails with "Not a valid pin". -/
theorem resolve_table_pin_fails :
    "29" ∈ pins.map Prod.fst ∧ "1" ∈ ["1", "2", "3"] ∧
      pinLine "29" "1" = .error "Not a valid pin" := by
  decide

/-- C2 (amended): for a label of the table and a revision among "1", "2", "3",
resolution either returns one line or fails with "Not a valid pin"; it fails
exactly for the labels "29" to "40" under the revisions "1" and "2". -/
theorem resolve_table_pin_total (pin rev : String)
    (hp : pin ∈ pins.map Prod.fst) (hr : rev ∈ ["1", "2", "3"]) :
    ((∃! line : Int, pinLine pin rev = .ok line) ∨
        pinLine pin rev = .error "Not a valid pin") ∧
      (pinLine pin rev = .error "Not a valid pin" ↔ (pin ∈ rev3Only ∧ rev ≠ "3")) := by
  have key : ∀ p ∈ pins.map Prod.fst, ∀ q ∈ ["1", "2", "3"],
      ((pinLine p q).toOption.isSome = true ∨ pinLine p q = .error "Not a valid pin") ∧
      (pinLine p q = .error "Not a valid pin" ↔ (p ∈ rev3Only ∧ q ≠ "3")) := by
    decide
  obtain ⟨h1, h2⟩ := key pin hp rev hr
  refine ⟨?_, h2⟩
  rcases h1 with h | h
  · left
    cases hq : pinLine pin rev with
    | error e => rw [hq] at h; simp [Except.toOption] at h
    | ok v => exact ⟨v, rfl, fun y hy => by cases hy; rfl⟩
  · right; exact h

/-- Witness of the amended C2 at pin "3", revision "1". -/
theorem resolve_table_pin_total_witness :
    ((∃! line : Int, pinLine "3" "1" = .ok line) ∨
        pinLine "3" "1" = .error "Not a valid pin") ∧
      (pinLine "3" "1" = .error "Not a valid pin" ↔ ("3" ∈ rev3Only ∧ "1" ≠ "3")) :=
  resolve_table_pin_total "3" "1" (by decide) (by decide)

/-- C3: pin "3" resolves to line 0 under revision "1" and to line 2 under the
revisions "2" and "3"; pin "7" resolves to line 4 under every revision string,
so `digitalPin` on "7" always goes on with line 4. -/
theorem resolve_documented_lines :
    pinLine "3" "1" = .ok 0 ∧ pinLine "3" "2" = .ok 2 ∧ pinLine "3" "3" = .ok 2 ∧
      (∀ rev : String, pinLine "7" rev = .ok 4) ∧
      (∀ (σ : Type) (D : Sysfs σ) (dir : String) (r : RaspiAdaptor) (w : World σ),
        digitalPin D "7" dir r w = acquire D 4 dir r w) := by
  refine ⟨by decide, by decide, by decide, pinLine_seven, ?_⟩
  intro σ D dir r w
  simp [digitalPin, pinLine_seven]

/-- C4: for a label that is not a key of the pin table, under every revision,
`digitalPin`, `DigitalRead` and `DigitalWrite` return the error
"Not a valid pin" and leave the adaptor and the world as they were: the trace of
driver calls and the pin cache are unchanged. -/
theorem invalid_pin_rejected {σ : Type} (D : Sysfs σ) (pin dir : String) (val : Nat)
    (r : RaspiAdaptor) (w : World σ) (h : pin ∉ pins.map Prod.fst) :
    digitalPin D pin dir r w = ((none, some "Not a valid pin"), r, w) ∧
      DigitalRead D pin r w = ((0, some "Not a valid pin"), r, w) ∧
      DigitalWrite D pin val r w = (some "Not a valid pin", r, w) ∧
      (digitalPin D pin dir r w).2.2.trace = w.trace ∧
      (DigitalRead D pin r w).2.2.trace = w.trace ∧
      (DigitalWrite D pin val r w).2.2.trace = w.trace ∧
      (digitalPin D pin dir r w).2.1.digitalPins = r.digitalPins ∧
      (DigitalRead D pin r w).2.1.digitalPins = r.digitalPins ∧
      (DigitalWrite D pin val r w).2.1.digitalPins = r.digitalPins := by
  have hp : ∀ d : String, digitalPin D pin d r w = ((none, some "Not a valid pin"), r, w) := by
    intro d
    simp [digitalPin, pinLine_of_not_key pin r.revision h]
  have hr : DigitalRead D pin r w = ((0, some "Not a valid pin"), r, w) := by
    simp [DigitalRead, hp]
  have hw : DigitalWrite D pin val r w = (some "Not a valid pin", r, w) := by
    simp [DigitalWrite, hp]
  refine ⟨hp dir, hr, hw, ?_, ?_, ?_, ?_, ?_, ?_⟩ <;> simp [hp, hr, hw]

/-- Witness of C4: the label "notexist" on the adaptor of the test suite. -/
theorem invalid_pin_rejected_witness :
    "notexist" ∉ pins.map Prod.fst ∧
      DigitalWrite echoSysfs "notexist" 1 testAdaptor (freshWorld []) =
        (some "Not a valid pin", testAdaptor, freshWorld []) :=
  ⟨by decide,
    (invalid_pin_rejected echoSysfs "notexist" OUT 1 testAdaptor (freshWorld [])
      (by decide)).2.2.1⟩

/-! ## The export cache -/

theorem mapGet_mapSet_self {β : Type} (m : List (Int × β)) (k : Int) (v : β) :
    mapGet (mapSet m k v) k = some v := by
  induction m with
  | nil => simp [mapSet, mapGet, List.lookup]
  | cons e m ih =>
    obtain ⟨k', v'⟩ := e
    by_cases h : k' = k
    · subst h
      simp [mapSet, mapGet, List.lookup]
    · have h1 : (k' == k) = false := by simpa using h
      have h2 : (k == k') = false := by simpa using fun h3 : k = k' => h h3.symm
      simp only [mapSet, h1, mapGet, List.lookup, h2] at ih ⊢
      exact ih

theorem cacheGet_mapSet_self (m : List (Int × Option DigitalPin)) (i : Int) (p : DigitalPin) :
    cacheGet (mapSet m i (some p)) i = some p := by
  simp [cacheGet, mapGet_mapSet_self]

theorem cacheCount_cons (m : List (Int × Option DigitalPin)) (k j : Int)
    (v : Option DigitalPin) :
    cacheCount ((k, v) :: m) j = (if k = j then 1 else 0) + cacheCount m j := by
  by_cases h : k = j
  · simp [cacheCount, List.filter_cons, h, Nat.add_comm]
  · simp [cacheCount, List.filter_cons, h]

theorem cacheCount_mapSet (m : List (Int × Option DigitalPin)) (i j : Int)
    (v : Option DigitalPin) :
    cacheCount (mapSet m i v) j =
      if i = j then max 1 (cacheCount m j) else cacheCount m j := by
  induction m with
  | nil =>
    by_cases h : i = j <;> simp [mapSet, cacheCount, h]
  | cons e m ih =>
    obtain ⟨k', v'⟩ := e
    by_cases h : k' = i
    · subst h
      simp only [mapSet, beq_self_eq_true, if_true, cacheCount_cons]
      by_cases hj : k' = j <;> simp [hj]
    · have h1 : (k' == i) = false := by simpa using h
      simp only [mapSet, h1, Bool.false_eq_true, if_false]
      rw [cacheCount_cons, cacheCount_cons, ih]
      by_cases hj : i = j
      · subst hj
        simp [h]
      · simp [hj]

theorem acquire_fresh {σ : Type} (D : Sysfs σ) (i : Int) (dir : String) (r : RaspiAdaptor)
    (w : World σ) (h : cacheGet r.digitalPins i = none) :
    acquire D i dir r w =
      (let p : DigitalPin := { addr := w.heap, pin := i }
       let r1 := { r with digitalPins := mapSet r.digitalPins i (some p) }
       let e := D.Export p w.sys
       let w1 : World σ := { sys := e.2, trace := w.trace ++ [Call.Export p], heap := w.heap + 1 }
       match e.1 with
       | some err => ((none, some err), r1, w1)
       | none =>
         let d := D.Direction p dir w1.sys
         let w2 : World σ := { w1 with sys := d.2, trace := w1.trace ++ [Call.Direction p dir] }
         match d.1 with
         | some err => ((none, some err), r1, w2)
         | none => ((some p, none), r1, w2)) := by
  unfold acquire
  rw [h]

theorem acquire_cached {σ : Type} (D : Sysfs σ) (i : Int) (dir : String) (r : RaspiAdaptor)
    (w : World σ) (p : DigitalPin) (h : cacheGet r.digitalPins i = some p) :
    acquire D i dir r w =
      (let d := D.Direction p dir w.sys
       let w2 : World σ := { w with sys := d.2, trace := w.trace ++ [Call.Direction p dir] }
       match d.1 with
       | some err => ((none, some err), r, w2)
       | none => ((some p, none), r, w2)) := by
  unfold acquire
  rw [h]


theorem digitalPin_handle_or_error {σ : Type} (D : Sysfs σ) (pin dir : String)
    (r : RaspiAdaptor) (w : World σ) :
    (digitalPin D pin dir r w).1 ≠ (none, none) := by
  unfold digitalPin
  split
  · simp
  · rename_i i _
    cases hc : cacheGet r.digitalPins i with
    | none =>
      rw [acquire_fresh D i dir r w hc]
      simp only
      split
      · simp
      · split <;> simp
    | some q =>
      rw [acquire_cached D i dir r w q hc]
      simp only
      split <;> simp

theorem acquire_success {σ : Type} (D : Sysfs σ) (i : Int) (dir : String)
    (r r1 : RaspiAdaptor) (w w1 : World σ) (p : DigitalPin)
    (h : acquire D i dir r w = ((some p, none), r1, w1)) :
    cacheGet r1.digitalPins i = some p ∧
      ((cacheGet r.digitalPins i = none ∧ p = { addr := w.heap, pin := i } ∧
          r1 = { r with digitalPins := mapSet r.digitalPins i (some p) } ∧
          w1.trace = w.trace ++ [Call.Export p, Call.Direction p dir]) ∨
        (cacheGet r.digitalPins i = some p ∧ r1 = r ∧
          w1.trace = w.trace ++ [Call.Direction p dir])) := by
  cases hc : cacheGet r.digitalPins i with
  | none =>
    rw [acquire_fresh D i dir r w hc] at h
    simp only at h
    split at h
    · simp at h
    · split at h
      · simp at h
      · simp only [Prod.mk.injEq, Option.some.injEq, true_and, and_true] at h
        obtain ⟨hp, hr, hw⟩ := h
        subst hp hr hw
        exact ⟨cacheGet_mapSet_self _ _ _, Or.inl ⟨rfl, rfl, rfl, by simp⟩⟩
  | some q =>
    rw [acquire_cached D i dir r w q hc] at h
    simp only at h
    split at h
    · simp at h
    · simp only [Prod.mk.injEq, Option.some.injEq, true_and, and_true] at h
      obtain ⟨hp, hr, hw⟩ := h
      subst hp hr hw
      exact ⟨hc, Or.inr ⟨rfl, rfl, rfl⟩⟩


theorem acquire_cache_step {σ : Type} (D : Sysfs σ) (i : Int) (dir : String)
    (r : RaspiAdaptor) (w : World σ) :
    (acquire D i dir r w).2.1.digitalPins = r.digitalPins ∨
      ∃ p, (acquire D i dir r w).2.1.digitalPins = mapSet r.digitalPins i (some p) := by
  cases hc : cacheGet r.digitalPins i with
  | none =>
    right
    refine ⟨{ addr := w.heap, pin := i }, ?_⟩
    rw [acquire_fresh D i dir r w hc]
    simp only
    split
    · rfl
    · split <;> rfl
  | some q =>
    left
    rw [acquire_cached D i dir r w q hc]
    simp only
    split <;> rfl

theorem digitalPin_cache_step {σ : Type} (D : Sysfs σ) (pin dir : String)
    (r : RaspiAdaptor) (w : World σ) :
    (digitalPin D pin dir r w).2.1.digitalPins = r.digitalPins ∨
      ∃ i p, (digitalPin D pin dir r w).2.1.digitalPins = mapSet r.digitalPins i (some p) := by
  unfold digitalPin
  split
  · exact Or.inl rfl
  · rename_i i _
    rcases acquire_cache_step D i dir r w with h | ⟨p, h⟩
    · exact Or.inl h
    · exact Or.inr ⟨i, p, h⟩

theorem DigitalRead_adaptor {σ : Type} (D : Sysfs σ) (pin : String)
    (r : RaspiAdaptor) (w : World σ) :
    (DigitalRead D pin r w).2.1 = (digitalPin D pin IN r w).2.1 := by
  unfold DigitalRead
  split <;> simp_all

theorem DigitalWrite_adaptor {σ : Type} (D : Sysfs σ) (pin : String) (val : Nat)
    (r : RaspiAdaptor) (w : World σ) :
    (DigitalWrite D pin val r w).2.1 = (digitalPin D pin OUT r w).2.1 := by
  unfold DigitalWrite
  split <;> simp_all

theorem Finalize_adaptor {σ : Type} (D : Sysfs σ) (visit : List (Int × Option DigitalPin))
    (r : RaspiAdaptor) (w : World σ) : (Finalize D visit r w).2.1 = r := by
  unfold Finalize
  split <;> rfl

theorem I2cWrite_adaptor {σ : Type} (D : Sysfs σ) (data : List Nat)
    (r : RaspiAdaptor) (w : World σ) : (I2cWrite D data r w).2.1 = r := by
  unfold I2cWrite
  split <;> rfl

theorem I2cRead_adaptor {σ : Type} (D : Sysfs σ) (maxAlloc size : Nat)
    (r : RaspiAdaptor) (w : World σ) : (I2cRead D maxAlloc size r w).2.1 = r := by
  unfold I2cRead
  split
  · rfl
  · split <;> rfl

theorem step_cache {σ : Type} (D : Sysfs σ) (op : Op) (s : RaspiAdaptor × World σ) :
    (step D op s).1.digitalPins = s.1.digitalPins ∨
      ∃ i p, (step D op s).1.digitalPins = mapSet s.1.digitalPins i (some p) := by
  cases op with
  | Connect => exact Or.inl rfl
  | Finalize visit =>
    left
    simp only [step, Finalize_adaptor]
  | DigitalRead pin =>
    simp only [step, DigitalRead_adaptor]
    exact digitalPin_cache_step D pin IN s.1 s.2
  | DigitalWrite pin val =>
    simp only [step, DigitalWrite_adaptor]
    exact digitalPin_cache_step D pin OUT s.1 s.2
  | PwmWrite pin val => exact Or.inl rfl
  | I2cStart address => exact Or.inl rfl
  | I2cWrite data =>
    left
    simp only [step, I2cWrite_adaptor]
  | I2cRead maxAlloc size =>
    left
    simp only [step, I2cRead_adaptor]

theorem cacheCount_mapSet_le (m : List (Int × Option DigitalPin)) (i : Int)
    (v : Option DigitalPin) (h : ∀ j, cacheCount m j ≤ 1) :
    ∀ j, cacheCount (mapSet m i v) j ≤ 1 := by
  intro j
  rw [cacheCount_mapSet]
  have := h j
  split
  · exact max_le (le_refl 1) this
  · exact this

theorem run_cache_unique {σ : Type} (D : Sysfs σ) (ops : List Op)
    (s : RaspiAdaptor × World σ) (h : ∀ j, cacheCount s.1.digitalPins j ≤ 1) :
    ∀ j, cacheCount (run D ops s).1.digitalPins j ≤ 1 := by
  induction ops generalizing s with
  | nil => exact h
  | cons op ops ih =>
    have hs : ∀ j, cacheCount (step D op s).1.digitalPins j ≤ 1 := by
      rcases step_cache D op s with e | ⟨i, p, e⟩
      · rw [e]; exact h
      · rw [e]; exact cacheCount_mapSet_le _ _ _ h
    exact ih (step D op s) hs

/-- C5 (what the code does): when the export of a not-yet-cached line fails,
`digitalPin` returns the export error at once, but the handle it made stays in
the cache under that line, and the next acquisition of the pin makes no
`Export` call: it goes straight to `Direction` on the handle that was never
exported. -/
theorem export_failure_stays_cached {σ : Type} (D : Sysfs σ) (pin dir dir2 : String)
    (r : RaspiAdaptor) (w : World σ) (i : Int) (err : Error)
    (hi : pinLine pin r.revision = .ok i) (hc : cacheGet r.digitalPins i = none)
    (he : (D.Export { addr := w.heap, pin := i } w.sys).1 = some err) :
    (digitalPin D pin dir r w).1 = (none, some err) ∧
      (digitalPin D pin dir r w).2.2.trace =
        w.trace ++ [Call.Export { addr := w.heap, pin := i }] ∧
      cacheGet (digitalPin D pin dir r w).2.1.digitalPins i =
        some { addr := w.heap, pin := i } ∧
      (digitalPin D pin dir2 (digitalPin D pin dir r w).2.1
          (digitalPin D pin dir r w).2.2).2.2.trace =
        w.trace ++ [Call.Export { addr := w.heap, pin := i },
          Call.Direction { addr := w.heap, pin := i } dir2] := by
  have h1 : digitalPin D pin dir r w =
      ((none, some err),
        { r with digitalPins := mapSet r.digitalPins i (some { addr := w.heap, pin := i }) },
        { sys := (D.Export { addr := w.heap, pin := i } w.sys).2,
          trace := w.trace ++ [Call.Export { addr := w.heap, pin := i }],
          heap := w.heap + 1 }) := by
    simp only [digitalPin, hi]
    rw [acquire_fresh D i dir r w hc]
    simp only [he]
  rw [h1]
  refine ⟨rfl, rfl, cacheGet_mapSet_self _ _ _, ?_⟩
  have hi2 : pinLine pin
      ({ r with digitalPins :=
          mapSet r.digitalPins i (some { addr := w.heap, pin := i }) } : RaspiAdaptor).revision =
      .ok i := hi
  simp only [digitalPin, hi2]
  rw [acquire_cached D i dir2 _ _ _ (cacheGet_mapSet_self _ _ _)]
  simp only
  split <;> simp

/-- The failing input of C5: pin "7" (line 4) on the adaptor of the test suite,
with a driver whose `Export` fails. The error is returned, line 4 is cached, and
the second acquisition calls `Direction` without a second `Export`. -/
theorem export_failure_stays_cached_witness :
    (digitalPin noExportSysfs "7" IN testAdaptor (freshWorld ())).1 =
        (none, some "export: permission denied") ∧
      (digitalPin noExportSysfs "7" IN testAdaptor (freshWorld ())).2.1.digitalPins =
        [(4, some { addr := 0, pin := 4 })] ∧
      (digitalPin noExportSysfs "7" IN
          (digitalPin noExportSysfs "7" IN testAdaptor (freshWorld ())).2.1
          (digitalPin noExportSysfs "7" IN testAdaptor (freshWorld ())).2.2).2.2.trace =
        [Call.Export { addr := 0, pin := 4 }, Call.Direction { addr := 0, pin := 4 } IN] := by
  have h := export_failure_stays_cached noExportSysfs "7" IN IN testAdaptor (freshWorld ()) 4
    "export: permission denied" (by decide) (by decide) rfl
  exact ⟨h.1, by decide, h.2.2.2⟩

/-- C6 (what the code does): on an adaptor whose stored bus handle is nil,
`I2cWrite` and `I2cRead` do not return, for any data and any size: the method
call on the nil interface panics, with the adaptor and the world untouched (for
a size that `make` does not accept, `I2cRead` panics in `make`, before it
reaches the handle). -/
theorem i2c_nil_handle_panics {σ : Type} (D : Sysfs σ) (data : List Nat)
    (maxAlloc size : Nat) (r : RaspiAdaptor) (w : World σ) (h : r.i2cDevice = none) :
    I2cWrite D data r w = (.panic nilDeref, r, w) ∧
      I2cRead D maxAlloc size r w =
        (.panic (if size ≤ maxAlloc then nilDeref else makesliceRange), r, w) ∧
      (size ≤ maxAlloc → I2cRead D maxAlloc size r w = (.panic nilDeref, r, w)) := by
  by_cases hs : size ≤ maxAlloc <;> simp [I2cWrite, I2cRead, makeBytes, h, hs]

/-- The failing input of C6: `I2cWrite` and `I2cRead` on a freshly constructed
adaptor, before any `I2cStart`. -/
theorem i2c_nil_handle_panics_witness :
    testAdaptor.i2cDevice = none ∧
      I2cWrite echoSysfs [1] testAdaptor (freshWorld []) =
        (.panic nilDeref, testAdaptor, freshWorld []) ∧
      I2cRead echoSysfs (2 ^ 48) 2 testAdaptor (freshWorld []) =
        (.panic nilDeref, testAdaptor, freshWorld []) :=
  ⟨rfl, (i2c_nil_handle_panics echoSysfs [1] (2 ^ 48) 2 testAdaptor (freshWorld []) rfl).1,
    (i2c_nil_handle_panics echoSysfs [1] (2 ^ 48) 2 testAdaptor (freshWorld []) rfl).2.2
      (by decide)⟩

theorem cacheCount_pos_of_cacheGet (m : List (Int × Option DigitalPin)) (i : Int)
    (p : DigitalPin) (h : cacheGet m i = some p) : 1 ≤ cacheCount m i := by
  induction m with
  | nil => simp [cacheGet, mapGet] at h
  | cons e m ih =>
    obtain ⟨k, v⟩ := e
    rw [cacheCount_cons]
    by_cases hk : k = i
    · simp [hk]
    · have h2 : (i == k) = false := by simpa using fun h3 : i = k => hk h3.symm
      simp only [cacheGet, mapGet, List.lookup, h2] at h ih
      have := ih h
      omega

theorem digitalPin_eq_acquire {σ : Type} (D : Sysfs σ) (pin dir : String) (r : RaspiAdaptor)
    (w : World σ) (i : Int) (hi : pinLine pin r.revision = .ok i) :
    digitalPin D pin dir r w = acquire D i dir r w := by
  simp only [digitalPin, hi]

/-- Counterexample to C7: on the adaptor of the test suite after
`DigitalRead("7")`, line 4 is cached; the two successive acquisitions of pin
"7", for input and then for output, both succeed and make two `Direction`
calls and no `Export` at all, not one. -/
theorem acquire_twice_cached_no_export :
    pinLine "7" cachedSeven.1.revision = .ok 4 ∧
      (digitalPin echoSysfs "7" IN cachedSeven.1 cachedSeven.2).1 =
        (some { addr := 0, pin := 4 }, none) ∧
      (digitalPin echoSysfs "7" OUT
          (digitalPin echoSysfs "7" IN cachedSeven.1 cachedSeven.2).2.1
          (digitalPin echoSysfs "7" IN cachedSeven.1 cachedSeven.2).2.2).1 =
        (some { addr := 0, pin := 4 }, none) ∧
      (digitalPin echoSysfs "7" OUT
          (digitalPin echoSysfs "7" IN cachedSeven.1 cachedSeven.2).2.1
          (digitalPin echoSysfs "7" IN cachedSeven.1 cachedSeven.2).2.2).2.2.trace.drop
          cachedSeven.2.trace.length =
        [Call.Direction { addr := 0, pin := 4 } IN,
          Call.Direction { addr := 0, pin := 4 } OUT] ∧
      ((digitalPin echoSysfs "7" OUT
          (digitalPin echoSysfs "7" IN cachedSeven.1 cachedSeven.2).2.1
          (digitalPin echoSysfs "7" IN cachedSeven.1 cachedSeven.2).2.2).2.2.trace.drop
          cachedSeven.2.trace.length).countP Call.isExport ≠ 1 := by
  decide

/-- C7 (amended): for a pin that resolves to line `i`, two successive
successful acquisitions with directions `d1` and `d2` return the same handle
and call `Direction d1` and then `Direction d2` on it; they call `Export`
exactly once in total, in the first call, when the line was not cached before
the first call, and not at all when it was already cached; the second call
never exports. The cache then holds that handle under `i`, in exactly one
entry. After any sequence of public operations on a constructed adaptor the
cache has at most one entry for every line. -/
theorem acquire_twice_one_handle {σ : Type} (D : Sysfs σ) (pin d1 d2 : String)
    (r r1 r2 : RaspiAdaptor) (w w1 w2 : World σ) (i : Int) (p1 p2 : DigitalPin)
    (hi : pinLine pin r.revision = .ok i)
    (h1 : digitalPin D pin d1 r w = ((some p1, none), r1, w1))
    (h2 : digitalPin D pin d2 r1 w1 = ((some p2, none), r2, w2)) :
    p2 = p1 ∧
      w1.trace = w.trace ++
        (if cacheGet r.digitalPins i = none then [Call.Export p1] else []) ++
        [Call.Direction p1 d1] ∧
      w2.trace = w1.trace ++ [Call.Direction p1 d2] ∧
      (w2.trace.drop w.trace.length).countP Call.isExport =
        (if cacheGet r.digitalPins i = none then 1 else 0) ∧
      (w2.trace.drop w1.trace.length).countP Call.isExport = 0 ∧
      (cacheGet r.digitalPins i = none →
        w2.trace = w.trace ++ [Call.Export p1, Call.Direction p1 d1, Call.Direction p1 d2]) ∧
      (cacheGet r.digitalPins i ≠ none →
        w2.trace = w.trace ++ [Call.Direction p1 d1, Call.Direction p1 d2]) ∧
      cacheGet r2.digitalPins i = some p1 ∧
      (cacheCount r.digitalPins i ≤ 1 → cacheCount r2.digitalPins i = 1) ∧
      (∀ (ops : List Op) (detected : String × String) (name : String) (w0 : World σ) (j : Int),
        cacheCount (run D ops (NewRaspiAdaptor detected name, w0)).1.digitalPins j ≤ 1) := by
  rw [digitalPin_eq_acquire D pin d1 r w i hi] at h1
  obtain ⟨hg1, hcase⟩ := acquire_success D i d1 r r1 w w1 p1 h1
  have hrev : r1.revision = r.revision := by
    rcases hcase with ⟨_, _, e, _⟩ | ⟨_, e, _⟩ <;> rw [e]
  rw [digitalPin_eq_acquire D pin d2 r1 w1 i (by rw [hrev]; exact hi)] at h2
  obtain ⟨hg2, hcase2⟩ := acquire_success D i d2 r1 r2 w1 w2 p2 h2
  have hsecond : cacheGet r1.digitalPins i = some p2 ∧ r2 = r1 ∧
      w2.trace = w1.trace ++ [Call.Direction p2 d2] := by
    rcases hcase2 with ⟨hn, _⟩ | h
    · rw [hg1] at hn; cases hn
    · exact h
  obtain ⟨hq, hr2, ht2⟩ := hsecond
  have hp : p2 = p1 := by
    rw [hg1] at hq
    exact (Option.some.inj hq).symm
  subst hp
  have hinv : ∀ (ops : List Op) (detected : String × String) (name : String) (w0 : World σ)
      (j : Int), cacheCount (run D ops (NewRaspiAdaptor detected name, w0)).1.digitalPins j ≤ 1 := by
    intro ops detected name w0 j
    exact run_cache_unique D ops _ (fun k => by simp [NewRaspiAdaptor, cacheCount]) j
  have hlast : (w2.trace.drop w1.trace.length).countP Call.isExport = 0 := by
    simp [ht2, Call.isExport]
  rcases hcase with ⟨hn, _, hr1, ht1⟩ | ⟨hs, hr1, ht1⟩
  · refine ⟨rfl, ?_, ht2, ?_, hlast, ?_, ?_, hg2, ?_, hinv⟩
    · simp [hn, ht1]
    · simp [ht2, ht1, hn, Call.isExport]
    · intro _
      simp [ht2, ht1]
    · intro hne
      exact absurd hn hne
    · intro hle
      rw [hr2, hr1]
      simp only [cacheCount_mapSet, if_true]
      exact le_antisymm (max_le (le_refl 1) hle) (le_max_left 1 _)
  · refine ⟨rfl, ?_, ht2, ?_, hlast, ?_, ?_, hg2, ?_, hinv⟩
    · simp [hs, ht1]
    · simp [ht2, ht1, hs, Call.isExport]
    · intro hn
      rw [hs] at hn
      cases hn
    · intro _
      simp [ht2, ht1]
    · intro hle
      rw [hr2, hr1]
      exact le_antisymm hle (cacheCount_pos_of_cacheGet _ _ _ hs)

/-- Witness of the amended C7: pin "7" acquired for input and then for output
on the adaptor of the test suite, against the echoing driver, from an empty
cache: one `Export`, then the two `Direction` calls. -/
theorem acquire_twice_one_handle_witness :
    pinLine "7" testAdaptor.revision = .ok 4 ∧
      (digitalPin echoSysfs "7" IN testAdaptor (freshWorld [])).1 =
        (some { addr := 0, pin := 4 }, none) ∧
      [Call.Export { addr := 0, pin := 4 }, Call.Direction { addr := 0, pin := 4 } IN,
          Call.Direction { addr := 0, pin := 4 } OUT] =
        (freshWorld ([] : List (Int × Int))).trace ++
          [Call.Export { addr := 0, pin := 4 }, Call.Direction { addr := 0, pin := 4 } IN,
            Call.Direction { addr := 0, pin := 4 } OUT] ∧
      cacheCount [(4, some ({ addr := 0, pin := 4 } : DigitalPin))] 4 = 1 := by
  have h := acquire_twice_one_handle echoSysfs "7" IN OUT testAdaptor
    { testAdaptor with digitalPins := [(4, some { addr := 0, pin := 4 })] }
    { testAdaptor with digitalPins := [(4, some { addr := 0, pin := 4 })] }
    (freshWorld [])
    { sys := [], trace := [Call.Export { addr := 0, pin := 4 },
        Call.Direction { addr := 0, pin := 4 } IN], heap := 1 }
    { sys := [], trace := [Call.Export { addr := 0, pin := 4 },
        Call.Direction { addr := 0, pin := 4 } IN, Call.Direction { addr := 0, pin := 4 } OUT],
      heap := 1 }
    4 { addr := 0, pin := 4 } { addr := 0, pin := 4 } (by decide) rfl rfl
  exact ⟨by decide, rfl, h.2.2.2.2.2.1 (by decide), h.2.2.2.2.2.2.2.2.1 (by decide)⟩

/-! ## Read after write -/

theorem acquire_total {σ : Type} (D : Sysfs σ) (i : Int) (dir : String) (r : RaspiAdaptor)
    (w : World σ) (hx : ∀ p s, (D.Export p s).1 = none)
    (hd : ∀ p d s, (D.Direction p d s).1 = none) :
    ∃ p w1 r1, acquire D i dir r w = ((some p, none), r1, w1) ∧
      cacheGet r1.digitalPins i = some p ∧ r1.revision = r.revision := by
  cases hc : cacheGet r.digitalPins i with
  | none =>
    rw [acquire_fresh D i dir r w hc]
    simp only [hx, hd]
    exact ⟨_, _, _, rfl, cacheGet_mapSet_self r.digitalPins i _, rfl⟩
  | some q =>
    rw [acquire_cached D i dir r w q hc]
    simp only [hd]
    exact ⟨_, _, _, rfl, hc, rfl⟩

/-- C8: for a pin that resolves under the adaptor's revision and a byte `v`,
against a driver whose `Export`, `Direction` and `Write` succeed and whose
`Read` returns the value last written to the line, `DigitalWrite pin v` returns
no error and the `DigitalRead pin` that follows returns `v` with no error. -/
theorem write_then_read_echoes {σ : Type} (D : Sysfs σ) (last : σ → Int → Option Int)
    (hE : Echoes D last) (pin : String) (v : Nat) (r : RaspiAdaptor) (w : World σ) (i : Int)
    (hi : pinLine pin r.revision = .ok i) (hv : v < 256) :
    (DigitalWrite D pin v r w).1 = none ∧
      (DigitalRead D pin (DigitalWrite D pin v r w).2.1 (DigitalWrite D pin v r w).2.2).1 =
        ((v : Int), none) := by
  obtain ⟨p, w1, r1, ha, hg, hrev⟩ :=
    acquire_total D i OUT r w hE.export_ok hE.direction_ok
  have hw : DigitalWrite D pin v r w =
      ((D.Write p (Int.ofNat (v % 256)) w1.sys).1, r1,
        { w1 with sys := (D.Write p (Int.ofNat (v % 256)) w1.sys).2,
                  trace := w1.trace ++ [Call.Write p (Int.ofNat (v % 256))] }) := by
    simp only [DigitalWrite, digitalPin_eq_acquire D pin OUT r w i hi, ha]
  rw [hw]
  refine ⟨hE.write_ok _ _ _, ?_⟩
  simp only
  have hrd : digitalPin D pin IN r1
      { w1 with sys := (D.Write p (Int.ofNat (v % 256)) w1.sys).2,
                trace := w1.trace ++ [Call.Write p (Int.ofNat (v % 256))] } =
      ((some p, none), r1,
        { w1 with sys := (D.Direction p IN (D.Write p (Int.ofNat (v % 256)) w1.sys).2).2,
                  trace := w1.trace ++ [Call.Write p (Int.ofNat (v % 256))] ++
                    [Call.Direction p IN] }) := by
    rw [digitalPin_eq_acquire D pin IN r1 _ i (by rw [hrev]; exact hi),
      acquire_cached D i IN r1 _ p hg]
    simp only [hE.direction_ok]
  simp only [DigitalRead, hrd]
  have hl : last (D.Direction p IN (D.Write p (Int.ofNat (v % 256)) w1.sys).2).2 p.pin =
      some (Int.ofNat (v % 256)) := by
    rw [hE.direction_last, hE.write_last]
  rw [hE.read_last _ _ _ hl, Nat.mod_eq_of_lt hv]
  rfl

theorem echoSysfs_echoes : Echoes echoSysfs (fun s l => mapGet s l) where
  export_ok := fun _ _ => rfl
  direction_ok := fun _ _ _ => rfl
  direction_last := fun _ _ _ _ => rfl
  write_ok := fun _ _ _ => rfl
  write_last := fun p b s => mapGet_mapSet_self s p.pin b
  read_last := fun p s b h => by
    simp only [echoSysfs]
    rw [h]
    rfl

/-- Witness of C8: the test of the suite, `DigitalWrite("13", 1)` followed by
`DigitalRead("13")` on a revision "3" board, against the echoing driver. -/
theorem write_then_read_echoes_witness :
    pinLine "13" testAdaptor.revision = .ok 27 ∧
      (DigitalWrite echoSysfs "13" 1 testAdaptor (freshWorld [])).1 = none ∧
      (DigitalRead echoSysfs "13" (DigitalWrite echoSysfs "13" 1 testAdaptor (freshWorld [])).2.1
        (DigitalWrite echoSysfs "13" 1 testAdaptor (freshWorld [])).2.2).1 = (1, none) :=
  ⟨by decide,
    write_then_read_echoes echoSysfs (fun s l => mapGet s l) echoSysfs_echoes "13" 1
      testAdaptor (freshWorld []) 27 (by decide) (by decide)⟩

/-! ## PWM and teardown -/

/-- C9: for every pin label, value, adaptor and world, `PwmWrite` returns the
error "PwmWrite is not yet implemented." and leaves the adaptor (revision, bus
path, pin cache, bus handle) and the world (driver state, trace of driver
calls) exactly as they were. -/
theorem pwmWrite_not_implemented {σ : Type} (pin : String) (val : Nat) (r : RaspiAdaptor)
    (w : World σ) :
    (PwmWrite pin val r w).1 = some "PwmWrite is not yet implemented." ∧
      (PwmWrite pin val r w).1 ≠ none ∧
      (PwmWrite pin val r w).2.2.trace = w.trace ∧
      (PwmWrite pin val r w).2.2 = w ∧
      (PwmWrite pin val r w).2.1 = r ∧
      (PwmWrite pin val r w).2.1.revision = r.revision ∧
      (PwmWrite pin val r w).2.1.i2cLocation = r.i2cLocation ∧
      (PwmWrite pin val r w).2.1.digitalPins = r.digitalPins ∧
      (PwmWrite pin val r w).2.1.i2cDevice = r.i2cDevice := by
  simp [PwmWrite]

theorem unexportAll_trace {σ : Type} (D : Sysfs σ) (m : List (Int × Option DigitalPin))
    (w : World σ) :
    (unexportAll D m w).trace = w.trace ++ (m.filterMap (fun e => e.2)).map Call.Unexport := by
  induction m generalizing w with
  | nil => simp [unexportAll]
  | cons e m ih =>
    obtain ⟨k, v⟩ := e
    cases v with
    | none => simp [unexportAll, ih]
    | some p => simp [unexportAll, ih]

theorem Finalize_spec {σ : Type} (D : Sysfs σ) (visit : List (Int × Option DigitalPin))
    (r : RaspiAdaptor) (w : World σ) :
    (Finalize D visit r w).1 = none ∧ (Finalize D visit r w).2.1 = r ∧
      (Finalize D visit r w).2.2.trace = w.trace ++ finalizeCalls visit r := by
  unfold Finalize finalizeCalls
  cases r.i2cDevice with
  | none => simp [unexportAll_trace]
  | some dev => simp [unexportAll_trace]

theorem finalizeCalls_perm (v1 v2 : List (Int × Option DigitalPin)) (r : RaspiAdaptor)
    (h : v1.Perm v2) : (finalizeCalls v1 r).Perm (finalizeCalls v2 r) := by
  unfold finalizeCalls
  exact List.Perm.append_right _ ((h.filterMap _).map _)

theorem finalizeCalls_eq_nil_iff (visit : List (Int × Option DigitalPin)) (r : RaspiAdaptor)
    (hv : visit.Perm r.digitalPins) :
    finalizeCalls visit r = [] ↔ ((∀ e ∈ r.digitalPins, e.2 = none) ∧ r.i2cDevice = none) := by
  simp only [finalizeCalls, List.append_eq_nil, List.map_eq_nil_iff, List.filterMap_eq_nil_iff]
  constructor
  · rintro ⟨ha, hb⟩
    refine ⟨fun e he => ha e (hv.mem_iff.mpr he), ?_⟩
    cases hd : r.i2cDevice with
    | none => rfl
    | some dev => rw [hd] at hb; simp at hb
  · rintro ⟨ha, hb⟩
    exact ⟨fun e he => ha e (hv.mem_iff.mp he), by simp [hb]⟩

/-- Counterexample to C10: after `DigitalWrite("7", 1)` and a first `Finalize`
on the adaptor of the test suite, a second `Finalize` is not a no-op: it makes a
driver call, a second `Unexport` on the handle of line 4. (The cache holds the
one entry of line 4, so the loop has one order to visit it in.) -/
theorem finalize_twice_unexports_again :
    (run echoSysfs [.DigitalWrite "7" 1, .Finalize [(4, some { addr := 0, pin := 4 })]]
        (testAdaptor, freshWorld [])).1.digitalPins = [(4, some { addr := 0, pin := 4 })] ∧
      (run echoSysfs [.DigitalWrite "7" 1, .Finalize [(4, some { addr := 0, pin := 4 })]]
          (testAdaptor, freshWorld [])).2.trace =
        [Call.Export { addr := 0, pin := 4 }, Call.Direction { addr := 0, pin := 4 } OUT,
          Call.Write { addr := 0, pin := 4 } 1, Call.Unexport { addr := 0, pin := 4 }] ∧
      (Finalize echoSysfs [(4, some { addr := 0, pin := 4 })]
          (run echoSysfs [.DigitalWrite "7" 1, .Finalize [(4, some { addr := 0, pin := 4 })]]
            (testAdaptor, freshWorld [])).1
          (run echoSysfs [.DigitalWrite "7" 1, .Finalize [(4, some { addr := 0, pin := 4 })]]
            (testAdaptor, freshWorld [])).2).2.2.trace =
        (run echoSysfs [.DigitalWrite "7" 1, .Finalize [(4, some { addr := 0, pin := 4 })]]
            (testAdaptor, freshWorld [])).2.trace ++
          [Call.Unexport { addr := 0, pin := 4 }] ∧
      (Finalize echoSysfs [(4, some { addr := 0, pin := 4 })]
          (run echoSysfs [.DigitalWrite "7" 1, .Finalize [(4, some { addr := 0, pin := 4 })]]
            (testAdaptor, freshWorld [])).1
          (run echoSysfs [.DigitalWrite "7" 1, .Finalize [(4, some { addr := 0, pin := 4 })]]
            (testAdaptor, freshWorld [])).2).2.2.trace ≠
        (run echoSysfs [.DigitalWrite "7" 1, .Finalize [(4, some { addr := 0, pin := 4 })]]
            (testAdaptor, freshWorld [])).2.trace := by
  decide

/-- C10 (amended): two `Finalize` calls in a row, whatever the orders `v1` and
`v2` in which their loops visit the cache, both return no error and leave the
adaptor as it was; the second repeats the driver calls of the first, an
`Unexport` for every non-nil cached handle and a `Close` when a bus handle is
stored (the same calls, the `Unexport`s possibly in another order); so the
second call makes no driver call exactly when the cache holds no handle and no
bus handle is stored. -/
theorem finalize_twice {σ : Type} (D : Sysfs σ) (v1 v2 : List (Int × Option DigitalPin))
    (r : RaspiAdaptor) (w : World σ)
    (hv1 : v1.Perm r.digitalPins) (hv2 : v2.Perm r.digitalPins) :
    (Finalize D v1 r w).1 = none ∧
      (Finalize D v2 (Finalize D v1 r w).2.1 (Finalize D v1 r w).2.2).1 = none ∧
      (Finalize D v2 (Finalize D v1 r w).2.1 (Finalize D v1 r w).2.2).2.1 = r ∧
      (Finalize D v1 r w).2.2.trace = w.trace ++ finalizeCalls v1 r ∧
      (Finalize D v2 (Finalize D v1 r w).2.1 (Finalize D v1 r w).2.2).2.2.trace =
        (Finalize D v1 r w).2.2.trace ++ finalizeCalls v2 r ∧
      (finalizeCalls v2 r).Perm (finalizeCalls v1 r) ∧
      (v2 = v1 → finalizeCalls v2 r = finalizeCalls v1 r) ∧
      ((Finalize D v2 (Finalize D v1 r w).2.1 (Finalize D v1 r w).2.2).2.2.trace =
          (Finalize D v1 r w).2.2.trace ↔
        ((∀ e ∈ r.digitalPins, e.2 = none) ∧ r.i2cDevice = none)) := by
  obtain ⟨h1, h2, h3⟩ := Finalize_spec D v1 r w
  obtain ⟨k1, k2, k3⟩ := Finalize_spec D v2 (Finalize D v1 r w).2.1 (Finalize D v1 r w).2.2
  rw [h2] at k1 k2 k3
  rw [h2]
  refine ⟨h1, k1, k2, h3, k3, finalizeCalls_perm v2 v1 r (hv2.trans hv1.symm),
    fun e => by rw [e], ?_⟩
  rw [k3, ← finalizeCalls_eq_nil_iff v2 r hv2]
  simp

theorem busyAdaptor_reached :
    (run echoSysfs [.DigitalWrite "7" 1, .DigitalWrite "13" 1, .I2cStart 8]
      (testAdaptor, freshWorld [])).1 = busyAdaptor := by
  decide

/-- Witness of the amended C10: lines 4 and 27 cached and a bus handle stored;
the first loop visits line 4 first, the second line 27 first. -/
theorem finalize_twice_witness :
    (Finalize echoSysfs [(27, some { addr := 1, pin := 27 }), (4, some { addr := 0, pin := 4 })]
        (Finalize echoSysfs
          [(4, some { addr := 0, pin := 4 }), (27, some { addr := 1, pin := 27 })]
          busyAdaptor (freshWorld [])).2.1
        (Finalize echoSysfs
          [(4, some { addr := 0, pin := 4 }), (27, some { addr := 1, pin := 27 })]
          busyAdaptor (freshWorld [])).2.2).2.2.trace =
      (Finalize echoSysfs
          [(4, some { addr := 0, pin := 4 }), (27, some { addr := 1, pin := 27 })]
          busyAdaptor (freshWorld [])).2.2.trace ++
        finalizeCalls [(27, some { addr := 1, pin := 27 }), (4, some { addr := 0, pin := 4 })]
          busyAdaptor :=
  (finalize_twice echoSysfs
    [(4, some { addr := 0, pin := 4 }), (27, some { addr := 1, pin := 27 })]
    [(27, some { addr := 1, pin := 27 }), (4, some { addr := 0, pin := 4 })]
    busyAdaptor (freshWorld []) (List.Perm.refl _) (List.Perm.swap _ _ _)).2.2.2.2.1

/-! ## The shape of the pin table -/

theorem lookup_mem {β : Type} (m : List (String × β)) (k : String) (v : β)
    (h : m.lookup k = some v) : (k, v) ∈ m := by
  induction m with
  | nil => simp at h
  | cons e m ih =>
    obtain ⟨k', v'⟩ := e
    by_cases hk : k = k'
    · subst hk
      simp only [List.lookup, beq_self_eq_true, Option.some.injEq] at h
      subst h
      exact List.mem_cons_self _ _
    · have hne : (k == k') = false := by simpa using hk
      simp only [List.lookup, hne] at h
      exact List.mem_cons_of_mem _ (ih h)

theorem pinLineIn_ok_mem (tbl : List (String × List (String × Int))) (pin rev : String)
    (i : Int) (h : pinLineIn tbl pin rev = .ok i) :
    ∃ entry, (pin, entry) ∈ tbl ∧ ((rev, i) ∈ entry ∨ ("*", i) ∈ entry) := by
  unfold pinLineIn pinsGet mapGet at h
  cases ht : tbl.lookup pin with
  | none => simp [ht] at h
  | some e =>
    refine ⟨e, lookup_mem tbl pin e ht, ?_⟩
    simp only [ht, Option.getD_some] at h
    cases h1 : e.lookup rev with
    | some v =>
      simp only [h1, Except.ok.injEq] at h
      subst h
      exact Or.inl (lookup_mem e rev v h1)
    | none =>
      simp only [h1] at h
      cases h2 : e.lookup "*" with
      | some v =>
        simp only [h2, Except.ok.injEq] at h
        subst h
        exact Or.inr (lookup_mem e "*" v h2)
      | none => simp [h2] at h

theorem pinLine_ok_key (pin rev : String) (i : Int) (h : pinLine pin rev = .ok i) :
    pin ∈ pins.map Prod.fst := by
  obtain ⟨e, he, _⟩ := pinLineIn_ok_mem pins pin rev i h
  exact List.mem_map.mpr ⟨(pin, e), he, rfl⟩

theorem pins_shape :
    ∀ e ∈ pins, e.2 ≠ [] ∧
      ∀ kv ∈ e.2, kv.1 ∈ ["1", "2", "3", "*"] ∧ 0 ≤ kv.2 ∧ kv.2 ≤ 27 := by
  decide

/-- C16: every entry of the pin table is non-empty, has only keys among "1",
"2", "3" and "*", and maps each key to a line from 0 to 27; so every successful
resolution, under any revision string, returns a line from 0 to 27. -/
theorem pins_lines_in_range :
    (∀ e ∈ pins, e.2 ≠ [] ∧
      ∀ kv ∈ e.2, kv.1 ∈ ["1", "2", "3", "*"] ∧ 0 ≤ kv.2 ∧ kv.2 ≤ 27) ∧
      (∀ (pin rev : String) (i : Int), pinLine pin rev = .ok i → 0 ≤ i ∧ i ≤ 27) := by
  refine ⟨pins_shape, ?_⟩
  intro pin rev i h
  obtain ⟨e, he, hm⟩ := pinLineIn_ok_mem pins pin rev i h
  rcases hm with hm | hm
  · exact ((pins_shape (pin, e) he).2 (rev, i) hm).2
  · exact ((pins_shape (pin, e) he).2 ("*", i) hm).2

/-- Witness of C16: pin "40" under revision "3" resolves to line 21, which is
between 0 and 27. -/
theorem pins_lines_in_range_witness : (0 : Int) ≤ 21 ∧ (21 : Int) ≤ 27 :=
  pins_lines_in_range.2 "40" "3" 21 (by decide)

theorem pins_wildcard_alone :
    ∀ e ∈ pins, e.2.map Prod.fst = ["*"] ∨ ∀ kv ∈ e.2, kv.1 ∈ ["1", "2", "3"] := by
  decide

/-- C17: every entry of the pin table is either the single wildcard key or
holds revision keys only, so no entry has both "*" and a revision key; the
keys of the table and of every entry are distinct; and whenever the exact
lookup and the wildcard lookup of `digitalPin` both hit for a pin of the table,
the revision string is "*" itself and the two values are the same. -/
theorem pins_unambiguous :
    (∀ e ∈ pins, e.2.map Prod.fst = ["*"] ∨ ∀ kv ∈ e.2, kv.1 ∈ ["1", "2", "3"]) ∧
      (∀ e ∈ pins, ¬ ("*" ∈ e.2.map Prod.fst ∧ ∃ k ∈ e.2.map Prod.fst, k ≠ "*")) ∧
      (pins.map Prod.fst).Nodup ∧ (∀ e ∈ pins, (e.2.map Prod.fst).Nodup) ∧
      (∀ (pin rev : String) (exact wild : Int), pinsGet pins pin rev = some exact →
        pinsGet pins pin "*" = some wild → rev = "*" ∧ exact = wild) := by
  refine ⟨pins_wildcard_alone, by decide, by decide, by decide, ?_⟩
  intro pin rev exact wild h1 h2
  unfold pinsGet mapGet at h1 h2
  cases ht : pins.lookup pin with
  | none => simp [ht] at h1
  | some e =>
    simp only [ht, Option.getD_some] at h1 h2
    have hrev : rev = "*" := by
      rcases pins_wildcard_alone (pin, e) (lookup_mem pins pin e ht) with hk | hk
      · have hm : rev ∈ e.map Prod.fst :=
          List.mem_map.mpr ⟨(rev, exact), lookup_mem e rev exact h1, rfl⟩
        have hk2 : e.map Prod.fst = ["*"] := hk
        rw [hk2] at hm
        simpa using hm
      · have hw : "*" ∈ ["1", "2", "3"] := hk ("*", wild) (lookup_mem e "*" wild h2)
        exact absurd hw (by decide)
    subst hrev
    rw [h1] at h2
    exact ⟨rfl, Option.some.inj h2⟩

/-- Witness of C17: on pin "7" under the revision string "*" both lookups hit,
on the same key, with the same value 4. -/
theorem pins_unambiguous_witness : "*" = "*" ∧ (4 : Int) = 4 :=
  pins_unambiguous.2.2.2.2 "7" "*" 4 4 (by decide) (by decide)

theorem pinLine_other_revision (pin rev : String) (h : rev ∉ ["1", "2", "3", "*"]) :
    pinLine pin rev = pinLine pin "*" := by
  unfold pinLine pinLineIn pinsGet mapGet
  cases ht : pins.lookup pin with
  | none => rfl
  | some e =>
    simp only [Option.getD_some]
    have hnone : e.lookup rev = none := by
      apply lookup_eq_none_of_not_mem
      intro hm
      obtain ⟨kv, hkv, hk⟩ := List.mem_map.mp hm
      have := ((pins_shape (pin, e) (lookup_mem pins pin e ht)).2 kv hkv).1
      rw [hk] at this
      exact h this
    rw [hnone]
    cases e.lookup "*" <;> rfl

theorem pinLine_injective_table :
    ∀ rev ∈ ["1", "2", "3", "*"], ∀ p ∈ pins.map Prod.fst, ∀ q ∈ pins.map Prod.fst,
      (pinLine p rev).toOption.isSome = true → pinLine p rev = pinLine q rev → p = q := by
  decide

theorem pinLine_injective (rev p q : String) (i : Int)
    (hp : pinLine p rev = .ok i) (hq : pinLine q rev = .ok i) : p = q := by
  have key : ∀ r ∈ ["1", "2", "3", "*"], pinLine p r = .ok i → pinLine q r = .ok i → p = q := by
    intro r hr h1 h2
    refine pinLine_injective_table r hr p (pinLine_ok_key p r i h1) q (pinLine_ok_key q r i h2)
      ?_ (h1.trans h2.symm)
    rw [h1]
    rfl
  by_cases hr : rev ∈ ["1", "2", "3", "*"]
  · exact key rev hr hp hq
  · rw [pinLine_other_revision p rev hr] at hp
    rw [pinLine_other_revision q rev hr] at hq
    exact key "*" (by decide) hp hq

theorem pinLine_rev2_rev3_table :
    ∀ p ∈ pins.map Prod.fst,
      ((pinLine p "2").toOption.isSome = true → pinLine p "3" = pinLine p "2") ∧
      ((pinLine p "3").toOption.isSome = true → pinLine p "3" ≠ pinLine p "2" →
        p ∈ rev3Only) := by
  decide

theorem pinLine_rev3Only_table :
    ∀ p ∈ rev3Only, pinLine p "2" = .error "Not a valid pin" ∧
      (pinLine p "3").toOption.isSome = true := by
  decide

/-- C19: revision "3" extends revision "2": a label that resolves to line `n`
under "2" resolves to the same `n` under "3". The converse fails only on the
labels "29" to "40", which resolve under "3" and are invalid under "2". -/
theorem rev3_extends_rev2 :
    (∀ (pin : String) (n : Int), pinLine pin "2" = .ok n → pinLine pin "3" = .ok n) ∧
      (∀ (pin : String) (n : Int), pinLine pin "3" = .ok n → pinLine pin "2" ≠ .ok n →
        pin ∈ rev3Only) ∧
      (∀ pin ∈ rev3Only, pinLine pin "2" = .error "Not a valid pin" ∧
        ∃ n, pinLine pin "3" = .ok n) := by
  refine ⟨?_, ?_, ?_⟩
  · intro pin n h
    have h2 := (pinLine_rev2_rev3_table pin (pinLine_ok_key pin "2" n h)).1 (by rw [h]; rfl)
    rw [h2, h]
  · intro pin n h hne
    refine (pinLine_rev2_rev3_table pin (pinLine_ok_key pin "3" n h)).2 (by rw [h]; rfl) ?_
    intro heq
    exact hne (heq ▸ h)
  · intro pin hpin
    obtain ⟨h1, h2⟩ := pinLine_rev3Only_table pin hpin
    refine ⟨h1, ?_⟩
    cases h3 : pinLine pin "3" with
    | error e => rw [h3] at h2; simp [Except.toOption] at h2
    | ok n => exact ⟨n, rfl⟩

/-- Witness of C19: pin "13" resolves to line 27 under "2" and under "3". -/
theorem rev3_extends_rev2_witness : pinLine "13" "3" = .ok 27 :=
  rev3_extends_rev2.1 "13" 27 (by decide)

/-! ## Teardown -/

/-- C11: on an adaptor whose pin cache is empty and whose bus handle is nil, as
`NewRaspiAdaptor` builds it, `Finalize` returns no error, makes no driver call
and leaves the adaptor and the world as they were. -/
theorem finalize_fresh_noop {σ : Type} (D : Sysfs σ) (visit : List (Int × Option DigitalPin))
    (r : RaspiAdaptor) (w : World σ) (hv : visit.Perm r.digitalPins)
    (hc : r.digitalPins = []) (hb : r.i2cDevice = none) :
    Finalize D visit r w = (none, r, w) ∧ (Finalize D visit r w).2.2.trace = w.trace ∧
      (∀ (detected : String × String) (name : String) (v : List (Int × Option DigitalPin)),
        v.Perm (NewRaspiAdaptor detected name).digitalPins →
        Finalize D v (NewRaspiAdaptor detected name) w =
          (none, NewRaspiAdaptor detected name, w)) := by
  have hnil : visit = [] := by
    rw [hc] at hv
    exact hv.eq_nil
  have h : Finalize D visit r w = (none, r, w) := by
    simp [Finalize, hnil, hb, unexportAll]
  refine ⟨h, by rw [h], ?_⟩
  intro detected name v hperm
  have hvnil : v = [] := hperm.eq_nil
  simp [Finalize, NewRaspiAdaptor, hvnil, unexportAll]

/-- Witness of C11: the adaptor of the test suite, right after construction. -/
theorem finalize_fresh_noop_witness :
    Finalize echoSysfs [] testAdaptor (freshWorld []) = (none, testAdaptor, freshWorld []) :=
  (finalize_fresh_noop echoSysfs [] testAdaptor (freshWorld []) (List.Perm.refl _) rfl rfl).1

theorem mem_mapSet {β : Type} (m : List (Int × β)) (i : Int) (v : β) (e : Int × β)
    (h : e ∈ mapSet m i v) : e ∈ m ∨ e = (i, v) := by
  induction m with
  | nil =>
    right
    simpa [mapSet] using h
  | cons a m ih =>
    obtain ⟨k, x⟩ := a
    by_cases hk : k = i
    · subst hk
      simp only [mapSet, beq_self_eq_true, if_true, List.mem_cons] at h
      rcases h with h | h
      · exact Or.inr h
      · exact Or.inl (List.mem_cons_of_mem _ h)
    · have h1 : (k == i) = false := by simpa using hk
      simp only [mapSet, h1, Bool.false_eq_true, if_false, List.mem_cons] at h
      rcases h with h | h
      · exact Or.inl (h ▸ List.mem_cons_self _ _)
      · rcases ih h with h2 | h2
        · exact Or.inl (List.mem_cons_of_mem _ h2)
        · exact Or.inr h2

theorem mapSet_keyed (m : List (Int × Option DigitalPin)) (i : Int) (p : DigitalPin)
    (hm : CacheKeyed m) (hp : p.pin = i) : CacheKeyed (mapSet m i (some p)) := by
  intro e he q hq
  rcases mem_mapSet m i (some p) e he with h | h
  · exact hm e h q hq
  · subst h
    simp only [Option.some.injEq] at hq
    subst hq
    exact hp

theorem acquire_cache_step_pin {σ : Type} (D : Sysfs σ) (i : Int) (dir : String)
    (r : RaspiAdaptor) (w : World σ) :
    (acquire D i dir r w).2.1.digitalPins = r.digitalPins ∨
      ∃ p, p.pin = i ∧
        (acquire D i dir r w).2.1.digitalPins = mapSet r.digitalPins i (some p) := by
  cases hc : cacheGet r.digitalPins i with
  | none =>
    right
    refine ⟨{ addr := w.heap, pin := i }, rfl, ?_⟩
    rw [acquire_fresh D i dir r w hc]
    simp only
    split
    · rfl
    · split <;> rfl
  | some q =>
    left
    rw [acquire_cached D i dir r w q hc]
    simp only
    split <;> rfl

theorem digitalPin_keyed {σ : Type} (D : Sysfs σ) (pin dir : String)
    (r : RaspiAdaptor) (w : World σ) (h : CacheKeyed r.digitalPins) :
    CacheKeyed (digitalPin D pin dir r w).2.1.digitalPins := by
  unfold digitalPin
  split
  · exact h
  · rename_i i _
    rcases acquire_cache_step_pin D i dir r w with e | ⟨p, hp, e⟩
    · rw [e]; exact h
    · rw [e]; exact mapSet_keyed _ _ _ h hp

theorem step_keyed {σ : Type} (D : Sysfs σ) (op : Op) (s : RaspiAdaptor × World σ)
    (h : CacheKeyed s.1.digitalPins) : CacheKeyed (step D op s).1.digitalPins := by
  cases op with
  | Connect => exact h
  | Finalize visit =>
    simp only [step, Finalize_adaptor]
    exact h
  | DigitalRead pin =>
    simp only [step, DigitalRead_adaptor]
    exact digitalPin_keyed D pin IN s.1 s.2 h
  | DigitalWrite pin val =>
    simp only [step, DigitalWrite_adaptor]
    exact digitalPin_keyed D pin OUT s.1 s.2 h
  | PwmWrite pin val => exact h
  | I2cStart address => exact h
  | I2cWrite data =>
    simp only [step, I2cWrite_adaptor]
    exact h
  | I2cRead maxAlloc size =>
    simp only [step, I2cRead_adaptor]
    exact h

theorem run_keyed {σ : Type} (D : Sysfs σ) (ops : List Op) (s : RaspiAdaptor × World σ)
    (h : CacheKeyed s.1.digitalPins) : CacheKeyed (run D ops s).1.digitalPins := by
  induction ops generalizing s with
  | nil => exact h
  | cons op ops ih => exact ih (step D op s) (step_keyed D op s h)

theorem count_handle_le (m : List (Int × Option DigitalPin)) (p : DigitalPin)
    (h : CacheKeyed m) : (m.map Prod.snd).count (some p) ≤ cacheCount m p.pin := by
  induction m with
  | nil => simp [cacheCount]
  | cons e m ih =>
    obtain ⟨k, v⟩ := e
    have hm : CacheKeyed m := fun e he q hq => h e (List.mem_cons_of_mem _ he) q hq
    have hle := ih hm
    rw [cacheCount_cons, List.map_cons, List.count_cons]
    by_cases hv : v = some p
    · have hk : k = p.pin := (h (k, v) (List.mem_cons_self _ _) p hv).symm
      rw [if_pos hk, if_pos (by simp [hv])]
      omega
    · rw [if_neg (by simpa using hv)]
      omega

theorem count_unexport (m : List (Int × Option DigitalPin)) (p : DigitalPin) :
    ((m.filterMap (fun e => e.2)).map Call.Unexport).count (Call.Unexport p) =
      (m.map Prod.snd).count (some p) := by
  induction m with
  | nil => rfl
  | cons e m ih =>
    obtain ⟨k, v⟩ := e
    cases v with
    | none => simp [List.filterMap_cons, List.count_cons, ih]
    | some q =>
      simp only [List.filterMap_cons, List.map_cons, List.count_cons, ih]
      by_cases hq : q = p <;> simp [hq]

theorem count_unexport_close (o : List I2cDevice) (p : DigitalPin) :
    (o.map Call.BusClose).count (Call.Unexport p) = 0 := by
  induction o with
  | nil => rfl
  | cons d o ih => simp [List.count_cons, ih]

theorem count_close_unexport (l : List DigitalPin) (dev : I2cDevice) :
    (l.map Call.Unexport).count (Call.BusClose dev) = 0 := by
  induction l with
  | nil => rfl
  | cons d o ih => simp [List.count_cons, ih]

/-- C12: for every adaptor state, every driver, whatever its `Unexport` and
`Close` return, and every order `visit` in which the loop visits the cache,
`Finalize` returns no error; the driver calls it makes are one `Unexport` per
non-nil handle held in the cache (as many calls on a handle as entries hold it,
exactly one on a constructed adaptor after any sequence of operations),
followed by one `Close` on the bus handle exactly when one is stored, and
nothing else. -/
theorem finalize_releases_all {σ : Type} (D : Sysfs σ)
    (visit : List (Int × Option DigitalPin)) (r : RaspiAdaptor) (w : World σ)
    (hv : visit.Perm r.digitalPins) :
    (Finalize D visit r w).1 = none ∧
      (Finalize D visit r w).2.2.trace = w.trace ++ finalizeCalls visit r ∧
      (∀ p, (finalizeCalls visit r).count (Call.Unexport p) =
        (r.digitalPins.map Prod.snd).count (some p)) ∧
      (∀ dev, (finalizeCalls visit r).count (Call.BusClose dev) =
        if r.i2cDevice = some dev then 1 else 0) ∧
      (∀ c ∈ finalizeCalls visit r,
        (∃ p, c = Call.Unexport p) ∨ (∃ dev, c = Call.BusClose dev)) ∧
      (∀ (ops : List Op) (detected : String × String) (name : String) (w0 : World σ)
        (v : List (Int × Option DigitalPin)) (k : Int) (p : DigitalPin),
        v.Perm (run D ops (NewRaspiAdaptor detected name, w0)).1.digitalPins →
        (k, some p) ∈ (run D ops (NewRaspiAdaptor detected name, w0)).1.digitalPins →
        (finalizeCalls v (run D ops (NewRaspiAdaptor detected name, w0)).1).count
          (Call.Unexport p) = 1) := by
  have hcount : ∀ (v : List (Int × Option DigitalPin)) (a : RaspiAdaptor) (p : DigitalPin),
      v.Perm a.digitalPins →
      (finalizeCalls v a).count (Call.Unexport p) =
        (a.digitalPins.map Prod.snd).count (some p) := by
    intro v a p hp
    simp only [finalizeCalls, List.count_append, count_unexport, count_unexport_close,
      Nat.add_zero]
    unfold List.count
    exact (hp.map Prod.snd).countP_eq _
  refine ⟨(Finalize_spec D visit r w).1, (Finalize_spec D visit r w).2.2,
    fun p => hcount visit r p hv, ?_, ?_, ?_⟩
  · intro dev
    simp only [finalizeCalls, List.count_append, count_close_unexport, Nat.zero_add]
    cases hd : r.i2cDevice with
    | none => simp
    | some d =>
      by_cases hdd : d = dev <;> simp [List.count_cons, hdd]
  · intro c hc
    simp only [finalizeCalls, List.mem_append, List.mem_map] at hc
    rcases hc with ⟨p, _, hp⟩ | ⟨dev, _, hdev⟩
    · exact Or.inl ⟨p, hp.symm⟩
    · exact Or.inr ⟨dev, hdev.symm⟩
  · intro ops detected name w0 v k p hperm hmem
    rw [hcount v _ p hperm]
    have hkeyed := run_keyed D ops (NewRaspiAdaptor detected name, w0)
      (fun e he => by simp [NewRaspiAdaptor] at he)
    have huniq := run_cache_unique D ops (NewRaspiAdaptor detected name, w0)
      (fun j => by simp [NewRaspiAdaptor, cacheCount]) p.pin
    have hle := count_handle_le _ p hkeyed
    have hpos : 0 < ((run D ops (NewRaspiAdaptor detected name, w0)).1.digitalPins.map
        Prod.snd).count (some p) :=
      List.count_pos_iff.mpr (List.mem_map.mpr ⟨(k, some p), hmem, rfl⟩)
    omega

/-- Witness of C12: lines 4 and 27 cached and a bus handle stored, the loop
visiting line 27 first: the handle of line 4 is unexported once. -/
theorem finalize_releases_all_witness :
    (finalizeCalls [(27, some { addr := 1, pin := 27 }), (4, some { addr := 0, pin := 4 })]
        busyAdaptor).count (Call.Unexport { addr := 0, pin := 4 }) =
      (busyAdaptor.digitalPins.map Prod.snd).count (some { addr := 0, pin := 4 }) :=
  (finalize_releases_all echoSysfs
    [(27, some { addr := 1, pin := 27 }), (4, some { addr := 0, pin := 4 })]
    busyAdaptor (freshWorld []) (List.Perm.swap _ _ _)).2.2.1 { addr := 0, pin := 4 }

/-! ## Digital reads and writes -/

theorem acquire_trace {σ : Type} (D : Sysfs σ) (i : Int) (dir : String)
    (r : RaspiAdaptor) (w : World σ) :
    ∃ calls, (acquire D i dir r w).2.2.trace = w.trace ++ calls ∧
      ∀ c ∈ calls, (∃ p, c = Call.Export p) ∨ (∃ p d, c = Call.Direction p d) := by
  cases hc : cacheGet r.digitalPins i with
  | none =>
    rw [acquire_fresh D i dir r w hc]
    simp only
    split
    · exact ⟨[Call.Export { addr := w.heap, pin := i }], rfl, by simp⟩
    · split
      · exact ⟨[Call.Export { addr := w.heap, pin := i },
          Call.Direction { addr := w.heap, pin := i } dir], by simp, by simp⟩
      · exact ⟨[Call.Export { addr := w.heap, pin := i },
          Call.Direction { addr := w.heap, pin := i } dir], by simp, by simp⟩
  | some q =>
    rw [acquire_cached D i dir r w q hc]
    simp only
    split
    · exact ⟨[Call.Direction q dir], rfl, by simp⟩
    · exact ⟨[Call.Direction q dir], rfl, by simp⟩

theorem digitalPin_trace {σ : Type} (D : Sysfs σ) (pin dir : String)
    (r : RaspiAdaptor) (w : World σ) :
    ∃ calls, (digitalPin D pin dir r w).2.2.trace = w.trace ++ calls ∧
      ∀ c ∈ calls, (∃ p, c = Call.Export p) ∨ (∃ p d, c = Call.Direction p d) := by
  unfold digitalPin
  split
  · exact ⟨[], by simp, by simp⟩
  · exact acquire_trace D _ dir r w

theorem DigitalRead_of_error {σ : Type} (D : Sysfs σ) (pin : String) (r : RaspiAdaptor)
    (w : World σ) (err : Error) (h : (digitalPin D pin IN r w).1.2 = some err) :
    DigitalRead D pin r w =
      ((0, some err), (digitalPin D pin IN r w).2.1, (digitalPin D pin IN r w).2.2) := by
  unfold DigitalRead
  split <;> rename_i heq <;> rw [heq] at h <;> simp_all

theorem DigitalWrite_of_error {σ : Type} (D : Sysfs σ) (pin : String) (val : Nat)
    (r : RaspiAdaptor) (w : World σ) (err : Error)
    (h : (digitalPin D pin OUT r w).1.2 = some err) :
    DigitalWrite D pin val r w =
      (some err, (digitalPin D pin OUT r w).2.1, (digitalPin D pin OUT r w).2.2) := by
  unfold DigitalWrite
  split <;> rename_i heq <;> rw [heq] at h <;> simp_all

theorem DigitalRead_of_handle {σ : Type} (D : Sysfs σ) (pin : String) (r r1 : RaspiAdaptor)
    (w w1 : World σ) (p : DigitalPin)
    (h : digitalPin D pin IN r w = ((some p, none), r1, w1)) :
    DigitalRead D pin r w =
      ((D.Read p w1.sys).1, r1,
        { w1 with sys := (D.Read p w1.sys).2, trace := w1.trace ++ [Call.Read p] }) := by
  simp only [DigitalRead, h]

theorem DigitalWrite_of_handle {σ : Type} (D : Sysfs σ) (pin : String) (val : Nat)
    (r r1 : RaspiAdaptor) (w w1 : World σ) (p : DigitalPin)
    (h : digitalPin D pin OUT r w = ((some p, none), r1, w1)) :
    DigitalWrite D pin val r w =
      ((D.Write p (Int.ofNat (val % 256)) w1.sys).1, r1,
        { w1 with sys := (D.Write p (Int.ofNat (val % 256)) w1.sys).2,
                  trace := w1.trace ++ [Call.Write p (Int.ofNat (val % 256))] }) := by
  simp only [DigitalWrite, h]

theorem digitalPin_success_trace {σ : Type} (D : Sysfs σ) (pin dir : String)
    (r r1 : RaspiAdaptor) (w w1 : World σ) (i : Int) (p : DigitalPin)
    (hi : pinLine pin r.revision = .ok i)
    (h : digitalPin D pin dir r w = ((some p, none), r1, w1)) :
    w1.trace = w.trace ++
      (if cacheGet r.digitalPins i = none then [Call.Export p] else []) ++
      [Call.Direction p dir] := by
  rw [digitalPin_eq_acquire D pin dir r w i hi] at h
  rcases (acquire_success D i dir r r1 w w1 p h).2 with ⟨hn, _, _, ht⟩ | ⟨hs, _, ht⟩
  · simp [hn, ht]
  · simp [hs, ht]

/-- C13: for a pin that resolves to line `i` and a byte `val`: when the
acquisition succeeds, `DigitalRead` has set the direction of the handle to
input as its last acquisition call and then issues one `Read`, whose value it
returns, and `DigitalWrite` has set the direction to output and then issues one
`Write` of `val`. The `Direction` call is made on every call: alone when the
handle was already cached, right after the `Export` when the handle was just
created and exported. -/
theorem digital_io_sets_direction {σ : Type} (D : Sysfs σ) (pin : String) (val : Nat)
    (r : RaspiAdaptor) (w : World σ) (i : Int)
    (hi : pinLine pin r.revision = .ok i) (hv : val < 256) :
    (∀ (p : DigitalPin) (r1 : RaspiAdaptor) (w1 : World σ),
      digitalPin D pin IN r w = ((some p, none), r1, w1) →
      w1.trace = w.trace ++
          (if cacheGet r.digitalPins i = none then [Call.Export p] else []) ++
          [Call.Direction p IN] ∧
        (DigitalRead D pin r w).1 = (D.Read p w1.sys).1 ∧
        (DigitalRead D pin r w).2.2.trace = w1.trace ++ [Call.Read p]) ∧
      (∀ (p : DigitalPin) (r1 : RaspiAdaptor) (w1 : World σ),
        digitalPin D pin OUT r w = ((some p, none), r1, w1) →
        w1.trace = w.trace ++
            (if cacheGet r.digitalPins i = none then [Call.Export p] else []) ++
            [Call.Direction p OUT] ∧
          (DigitalWrite D pin val r w).1 = (D.Write p (val : Int) w1.sys).1 ∧
          (DigitalWrite D pin val r w).2.2.trace = w1.trace ++ [Call.Write p (val : Int)]) ∧
      (∀ (p : DigitalPin) (dir : String), cacheGet r.digitalPins i = some p →
        (digitalPin D pin dir r w).2.2.trace = w.trace ++ [Call.Direction p dir]) ∧
      (∀ dir : String, cacheGet r.digitalPins i = none →
        (D.Export { addr := w.heap, pin := i } w.sys).1 = none →
        (digitalPin D pin dir r w).2.2.trace =
          w.trace ++ [Call.Export { addr := w.heap, pin := i },
            Call.Direction { addr := w.heap, pin := i } dir]) := by
  have hval : Int.ofNat (val % 256) = (val : Int) := by rw [Nat.mod_eq_of_lt hv]; rfl
  refine ⟨?_, ?_, ?_, ?_⟩
  · intro p r1 w1 h
    refine ⟨digitalPin_success_trace D pin IN r r1 w w1 i p hi h, ?_, ?_⟩
    · rw [DigitalRead_of_handle D pin r r1 w w1 p h]
    · rw [DigitalRead_of_handle D pin r r1 w w1 p h]
  · intro p r1 w1 h
    refine ⟨digitalPin_success_trace D pin OUT r r1 w w1 i p hi h, ?_, ?_⟩
    · rw [DigitalWrite_of_handle D pin val r r1 w w1 p h, hval]
    · rw [DigitalWrite_of_handle D pin val r r1 w w1 p h, hval]
  · intro p dir hc
    rw [digitalPin_eq_acquire D pin dir r w i hi, acquire_cached D i dir r w p hc]
    simp only
    split <;> rfl
  · intro dir hc he
    rw [digitalPin_eq_acquire D pin dir r w i hi, acquire_fresh D i dir r w hc]
    simp only [he]
    split <;> simp

/-- Witness of C13: `DigitalWrite("7", 1)` on the adaptor of the test suite
exports line 4, sets it to output and writes 1. -/
theorem digital_io_sets_direction_witness :
    (DigitalWrite echoSysfs "7" 1 testAdaptor (freshWorld [])).2.2.trace =
      [Call.Export { addr := 0, pin := 4 }, Call.Direction { addr := 0, pin := 4 } OUT] ++
        [Call.Write { addr := 0, pin := 4 } ((1 : Nat) : Int)] :=
  ((digital_io_sets_direction echoSysfs "7" 1 testAdaptor (freshWorld []) 4
    (by decide) (by decide)).2.1 { addr := 0, pin := 4 }
    { testAdaptor with digitalPins := [(4, some { addr := 0, pin := 4 })] }
    { sys := [], trace := [Call.Export { addr := 0, pin := 4 },
        Call.Direction { addr := 0, pin := 4 } OUT], heap := 1 } rfl).2.2

/-- C14: whatever error the acquisition returns, `DigitalRead` and
`DigitalWrite` return that same error and stop there: the adaptor and the world
are those the acquisition left, and the calls the acquisition made are only
`Export` and `Direction` calls, never a `Read` or a `Write`. The acquisition
error is "Not a valid pin" for a label that does not resolve, the error of
`Export` when the export of a new handle fails, and the error of `Direction`
when setting the direction fails. When the acquisition succeeds, the value and
the error of the driver's `Read`, and the error of its `Write`, are returned as
they are. -/
theorem digital_io_errors_unchanged {σ : Type} (D : Sysfs σ) (pin : String) (val : Nat)
    (r : RaspiAdaptor) (w : World σ) :
    (∀ err, (digitalPin D pin IN r w).1.2 = some err →
      DigitalRead D pin r w =
        ((0, some err), (digitalPin D pin IN r w).2.1, (digitalPin D pin IN r w).2.2)) ∧
      (∀ err, (digitalPin D pin OUT r w).1.2 = some err →
        DigitalWrite D pin val r w =
          (some err, (digitalPin D pin OUT r w).2.1, (digitalPin D pin OUT r w).2.2)) ∧
      (∀ dir, ∃ calls, (digitalPin D pin dir r w).2.2.trace = w.trace ++ calls ∧
        ∀ c ∈ calls, (∃ p, c = Call.Export p) ∨ (∃ p d, c = Call.Direction p d)) ∧
      (∀ dir e, pinLine pin r.revision = .error e →
        e = "Not a valid pin" ∧ (digitalPin D pin dir r w).1 = (none, some e)) ∧
      (∀ dir i err, pinLine pin r.revision = .ok i → cacheGet r.digitalPins i = none →
        (D.Export { addr := w.heap, pin := i } w.sys).1 = some err →
        (digitalPin D pin dir r w).1 = (none, some err)) ∧
      (∀ dir i err, pinLine pin r.revision = .ok i → cacheGet r.digitalPins i = none →
        (D.Export { addr := w.heap, pin := i } w.sys).1 = none →
        (D.Direction { addr := w.heap, pin := i } dir
          (D.Export { addr := w.heap, pin := i } w.sys).2).1 = some err →
        (digitalPin D pin dir r w).1 = (none, some err)) ∧
      (∀ dir i p err, pinLine pin r.revision = .ok i → cacheGet r.digitalPins i = some p →
        (D.Direction p dir w.sys).1 = some err →
        (digitalPin D pin dir r w).1 = (none, some err)) ∧
      (∀ p r1 w1, digitalPin D pin IN r w = ((some p, none), r1, w1) →
        (DigitalRead D pin r w).1 = (D.Read p w1.sys).1) ∧
      (∀ p r1 w1, digitalPin D pin OUT r w = ((some p, none), r1, w1) →
        (DigitalWrite D pin val r w).1 = (D.Write p (Int.ofNat (val % 256)) w1.sys).1) := by
  refine ⟨fun err h => DigitalRead_of_error D pin r w err h,
    fun err h => DigitalWrite_of_error D pin val r w err h,
    fun dir => digitalPin_trace D pin dir r w, ?_, ?_, ?_, ?_, ?_, ?_⟩
  · intro dir e he
    have hmsg : e = "Not a valid pin" := by
      have h := pinLineIn_eq_resolve pins pin r.revision
      unfold pinLine at he
      rw [he] at h
      cases hres : resolve pins pin r.revision with
      | some line => rw [hres] at h; cases h
      | none => rw [hres] at h; exact Except.error.inj h
    refine ⟨hmsg, ?_⟩
    simp only [digitalPin, he]
  · intro dir i err hi hc he
    rw [digitalPin_eq_acquire D pin dir r w i hi, acquire_fresh D i dir r w hc]
    simp only [he]
  · intro dir i err hi hc he hd
    rw [digitalPin_eq_acquire D pin dir r w i hi, acquire_fresh D i dir r w hc]
    simp only [he, hd]
  · intro dir i p err hi hc hd
    rw [digitalPin_eq_acquire D pin dir r w i hi, acquire_cached D i dir r w p hc]
    simp only [hd]
  · intro p r1 w1 h
    rw [DigitalRead_of_handle D pin r r1 w w1 p h]
  · intro p r1 w1 h
    rw [DigitalWrite_of_handle D pin val r r1 w w1 p h]

/-- Witness of C14: with a driver whose `Export` fails, `DigitalRead("7")` on
the adaptor of the test suite returns the export error and makes no `Read`. -/
theorem digital_io_errors_unchanged_witness :
    DigitalRead noExportSysfs "7" testAdaptor (freshWorld ()) =
      ((0, some "export: permission denied"),
        (digitalPin noExportSysfs "7" IN testAdaptor (freshWorld ())).2.1,
        (digitalPin noExportSysfs "7" IN testAdaptor (freshWorld ())).2.2) :=
  (digital_io_errors_unchanged noExportSysfs "7" 1 testAdaptor (freshWorld ())).1
    "export: permission denied" rfl

/-! ## The bus -/

/-- C15: `I2cStart` makes one driver call, the opening of a bus handle for the
bus device path of the adaptor and the given address; it returns the error of
that call and stores the handle it returned as the current handle, whatever
handle was stored before; it makes no `Close` call, and it leaves the name, the
revision, the bus device path and the pin cache as they were. -/
theorem i2cStart_replaces_handle {σ : Type} (D : Sysfs σ) (address : Nat)
    (r : RaspiAdaptor) (w : World σ) :
    (I2cStart D address r w).1 = (D.NewI2cDevice r.i2cLocation address w.sys).1.2 ∧
      (I2cStart D address r w).2.1.i2cDevice =
        (D.NewI2cDevice r.i2cLocation address w.sys).1.1 ∧
      (I2cStart D address r w).2.2.trace =
        w.trace ++ [Call.NewI2cDevice r.i2cLocation address] ∧
      (∀ dev, Call.BusClose dev ∉
        (I2cStart D address r w).2.2.trace.drop w.trace.length) ∧
      (I2cStart D address r w).2.1.revision = r.revision ∧
      (I2cStart D address r w).2.1.i2cLocation = r.i2cLocation ∧
      (I2cStart D address r w).2.1.digitalPins = r.digitalPins ∧
      (I2cStart D address r w).2.1.name = r.name ∧
      (∀ old : Option I2cDevice,
        (I2cStart D address { r with i2cDevice := old } w).2.1.i2cDevice =
          (I2cStart D address r w).2.1.i2cDevice ∧
        (I2cStart D address { r with i2cDevice := old } w).2.2.trace =
          (I2cStart D address r w).2.2.trace) := by
  refine ⟨rfl, rfl, rfl, ?_, rfl, rfl, rfl, rfl, fun old => ⟨rfl, rfl⟩⟩
  intro dev
  simp [I2cStart]

/-! ## Board revision -/

/-- C20: for every revision code `d`, zero and the negative ones included,
`boardRevision` returns revision "1" with "/dev/i2c-0" when `d ≤ 3`, revision
"2" with "/dev/i2c-1" when `3 < d ≤ 15` and revision "3" with "/dev/i2c-1" when
`15 < d`; the revision is always one of "1", "2", "3", and the bus device path
is "/dev/i2c-0" exactly when the revision is "1" and "/dev/i2c-1" otherwise. -/
theorem boardRevision_classifies (d : Int) :
    (boardRevision d).1 = (if d ≤ 3 then "1" else if d ≤ 15 then "2" else "3") ∧
      (boardRevision d).1 ∈ ["1", "2", "3"] ∧
      ((boardRevision d).2 = "/dev/i2c-0" ↔ (boardRevision d).1 = "1") ∧
      ((boardRevision d).2 = "/dev/i2c-1" ↔ (boardRevision d).1 ≠ "1") ∧
      boardRevision 0 = ("1", "/dev/i2c-0") ∧
      (d < 0 → boardRevision d = ("1", "/dev/i2c-0")) := by
  unfold boardRevision
  by_cases h1 : d ≤ 3
  · simp [h1]
  · by_cases h2 : d ≤ 15
    · simp [h1, h2]
      omega
    · simp [h1, h2]
      omega

/-- Witness of C20: the revision code -1 is classified as revision "1". -/
theorem boardRevision_classifies_witness : boardRevision (-1) = ("1", "/dev/i2c-0") :=
  (boardRevision_classifies (-1)).2.2.2.2.2 (by decide)

/-! ## One handle per physical pin -/

theorem cacheGet_mem (m : List (Int × Option DigitalPin)) (i : Int) (p : DigitalPin)
    (h : cacheGet m i = some p) : (i, some p) ∈ m := by
  induction m with
  | nil => simp [cacheGet, mapGet] at h
  | cons e m ih =>
    obtain ⟨k, v⟩ := e
    by_cases hk : i = k
    · subst hk
      simp only [cacheGet, mapGet, List.lookup, beq_self_eq_true, Option.getD_some] at h
      subst h
      exact List.mem_cons_self _ _
    · have hne : (i == k) = false := by simpa using hk
      simp only [cacheGet, mapGet, List.lookup, hne] at h ih
      exact List.mem_cons_of_mem _ (ih h)

theorem digitalPin_success_line {σ : Type} (D : Sysfs σ) (pin dir : String)
    (r r1 : RaspiAdaptor) (w w1 : World σ) (p : DigitalPin)
    (hk : CacheKeyed r.digitalPins)
    (h : digitalPin D pin dir r w = ((some p, none), r1, w1)) :
    pinLine pin r.revision = .ok p.pin ∧ r1.revision = r.revision ∧
      CacheKeyed r1.digitalPins := by
  have hk1 : CacheKeyed r1.digitalPins := by
    have := digitalPin_keyed D pin dir r w hk
    rw [h] at this
    exact this
  cases hl : pinLine pin r.revision with
  | error e =>
    simp only [digitalPin, hl] at h
    simp at h
  | ok i =>
    rw [digitalPin_eq_acquire D pin dir r w i hl] at h
    obtain ⟨hg, hcase⟩ := acquire_success D i dir r r1 w w1 p h
    have hpin : p.pin = i := hk1 (i, some p) (cacheGet_mem _ _ _ hg) p rfl
    refine ⟨by rw [hpin], ?_, hk1⟩
    rcases hcase with ⟨_, _, e, _⟩ | ⟨_, e, _⟩ <;> rw [e]

/-- C18: under every fixed revision string, resolution is injective on pin
labels: two labels that both resolve, to the same line, are the same label.
The alias of line 21 (pin "13" on revision "1", pin "40" on revision "3") lies
across two revisions, under each of which the other label does not give 21.
Hence on a constructed adaptor of that revision, after any sequence of
operations, the acquisitions of two distinct labels return two distinct
handles. -/
theorem resolve_injective (rev p q : String) (i : Int)
    (hp : pinLine p rev = .ok i) (hq : pinLine q rev = .ok i) :
    p = q ∧
      (pinLine "13" "1" = .ok 21 ∧ pinLine "40" "3" = .ok 21 ∧
        pinLine "40" "1" ≠ .ok 21 ∧ pinLine "13" "3" ≠ .ok 21) ∧
      (∀ (σ : Type) (D : Sysfs σ) (ops : List Op) (detected : String × String)
        (name : String) (w0 : World σ) (a b d1 d2 : String) (h1 h2 : DigitalPin)
        (r1 r2 : RaspiAdaptor) (w1 w2 : World σ),
        (run D ops (NewRaspiAdaptor detected name, w0)).1.revision = rev →
        digitalPin D a d1 (run D ops (NewRaspiAdaptor detected name, w0)).1
          (run D ops (NewRaspiAdaptor detected name, w0)).2 = ((some h1, none), r1, w1) →
        digitalPin D b d2 r1 w1 = ((some h2, none), r2, w2) →
        a ≠ b → h1 ≠ h2) := by
  refine ⟨pinLine_injective rev p q i hp hq, by decide, ?_⟩
  intro σ D ops detected name w0 a b d1 d2 h1 h2 r1 r2 w1 w2 hrev ha hb hab heq
  have hk := run_keyed D ops (NewRaspiAdaptor detected name, w0)
    (fun e he => by simp [NewRaspiAdaptor] at he)
  obtain ⟨hla, hr1, hk1⟩ := digitalPin_success_line D a d1 _ r1 _ w1 h1 hk ha
  obtain ⟨hlb, _, _⟩ := digitalPin_success_line D b d2 r1 r2 w1 w2 h2 hk1 hb
  rw [hr1] at hlb
  rw [heq] at hla
  exact hab (pinLine_injective _ a b h2.pin hla hlb)

/-- Witness of C18: the label "13" under revision "1", against itself. -/
theorem resolve_injective_witness : pinLine "13" "1" = .ok 21 ∧ "13" = "13" :=
  ⟨by decide, (resolve_injective "1" "13" "13" 21 (by decide) (by decide)).1⟩

end Raspi
